import Mathlib

/-!
The header `kdm.h` of libkdm: power-of-two rounding and the growing line reader

A shallow embedding of the header `src/kdm.h`.

* Machine words are natural numbers; every place where C arithmetic can wrap
  carries an explicit `% 2 ^ w`.
* `char` is the signed 8-bit type of gcc / clang on x86 (the compilers the
  header names): a stored byte `0xFF` reads back as `-1`.
* Library calls (`fgetc`, `feof`, `realloc`) are modelled by a small world
  state; the allocator is an oracle.
-/

namespace Kdm

/-! ## Bit fiddling (`kdm.h` lines 186-232) -/

/-- The five OR-shift steps shared by both branches of `kmroundup32`
(`(v)|=(v)>>1, ..., (v)|=(v)>>16`). -/
def smear32 (v : Nat) : Nat :=
  let v := v ||| (v >>> 1)
  let v := v ||| (v >>> 2)
  let v := v ||| (v >>> 4)
  let v := v ||| (v >>> 8)
  let v := v ||| (v >>> 16)
  v

/-- The six OR-shift steps shared by both branches of `kmroundup64`
(`(v)|=(v)>>1, ..., (v)|=(v)>>32`). -/
def smear64 (v : Nat) : Nat :=
  let v := v ||| (v >>> 1)
  let v := v ||| (v >>> 2)
  let v := v ||| (v >>> 4)
  let v := v ||| (v >>> 8)
  let v := v ||| (v >>> 16)
  let v := v ||| (v >>> 32)
  v

/-- The macro `kmroundup32(v)` applied to a 32-bit unsigned variable holding
`v`: the value of the expression (which is also the value left in `v`).
`(v) - 1`, `--(v)` and `++(v)` are computed modulo `2 ^ 32`. -/
def kmroundup32 (v : Nat) : Nat :=
  if v &&& ((v + 2 ^ 32 - 1) % 2 ^ 32) = 0 then
    -- power-of-two branch: no decrement
    (smear32 v + 1) % 2 ^ 32
  else
    (smear32 ((v + 2 ^ 32 - 1) % 2 ^ 32) + 1) % 2 ^ 32

/-- The macro `kmroundup64(v)` applied to a 64-bit unsigned variable holding
`v`. `(v) - 1`, `--(v)` and `++(v)` are computed modulo `2 ^ 64`. -/
def kmroundup64 (v : Nat) : Nat :=
  if v &&& ((v + 2 ^ 64 - 1) % 2 ^ 64) = 0 then
    -- power-of-two branch: no decrement
    (smear64 v + 1) % 2 ^ 64
  else
    (smear64 ((v + 2 ^ 64 - 1) % 2 ^ 64) + 1) % 2 ^ 64

/-! ## Target data model (`kdm.h` lines 228-232) -/

/-- The two targets the header knows: `UINTPTR_MAX == 0xffffffffffffffff`
and `UINTPTR_MAX == 0xffffffff`. `size_t` and `ssize_t` have `bits` bits. -/
inductive Target
  | w64
  | w32
  deriving DecidableEq, Repr

/-- Width of `size_t` on the target. -/
def Target.bits : Target → Nat
  | .w64 => 64
  | .w32 => 32

/-- Modulus of `size_t` arithmetic on the target. -/
def Target.wordMod (t : Target) : Nat := 2 ^ t.bits

/-- The macro `kmroundupz`: `kmroundup64` or `kmroundup32` by target. -/
def kmroundupz (t : Target) (v : Nat) : Nat :=
  match t with
  | .w64 => kmroundup64 v
  | .w32 => kmroundup32 v

/-- Conversion of a `size_t` value to `ssize_t` (`return len;`). -/
def toSsize (t : Target) (n : Nat) : Int :=
  if n < 2 ^ (t.bits - 1) then (n : Int) else (n : Int) - (2 ^ t.bits : Nat)

/-! ## Error handling constants and the handler (`kdm.h` lines 72-125) -/

/-- The table `km_err_msgs`; the final `none` is its `NULL` entry. -/
def km_err_msgs : List (Option String) :=
  [ some "No Error",
    some "Could not allocate memory",
    some "Could not free memory",
    some "Null pointer passed to function expecting valid memory address",
    some "Bad path passed to function expecting valid filesystem path",
    none ]

/-- One call `(*onerr)(err, msg, file, line)`; `msg = none` is `NULL`. -/
structure ErrCall where
  err : Int
  msg : Option String
  file : String
  line : Int
  deriving DecidableEq, Repr

/-! ## Bytes, characters and streams -/

/-- A byte of memory or of a stream. -/
abbrev Byte := Fin 256

/-- The `stdio.h` constant `EOF`. -/
def EOF : Int := -1

/-- Value of a `char` object whose representation is the byte `b`
(`char` is signed). -/
def charVal (b : Byte) : Int :=
  if b.val < 128 then (b.val : Int) else (b.val : Int) - 256

/-- Byte stored when an `int` is assigned to a `char`: its low eight bits. -/
def toChar (c : Int) : Byte := Fin.ofNat (c % 256).toNat

/-- A stream open for reading: the bytes not yet read and the end-of-file
indicator. Read errors are not modelled. -/
structure FILE where
  data : List Byte
  eof : Bool
  deriving DecidableEq, Repr

/-- Library call `fgetc`: the next byte as an `unsigned char` converted to
`int`, or `EOF` with the end-of-file indicator set. -/
def fgetc (fp : FILE) : Int × FILE :=
  if fp.eof then (EOF, fp)
  else
    match fp.data with
    | [] => (EOF, { fp with eof := true })
    | b :: rest => ((b.val : Int), { fp with data := rest })

/-- Library call `feof`. -/
def feof (fp : FILE) : Bool := fp.eof

/-! ## Memory, the allocator and the observable world -/

/-- A heap block: its address and its bytes; the length of `bytes` is the
allocated size. -/
structure Buffer where
  addr : Nat
  bytes : List Byte
  deriving DecidableEq, Repr

/-- A call of a library allocation function, with its arguments. -/
inductive AllocCall
  | calloc (n size : Nat)
  | malloc (size : Nat)
  | realloc (addr size : Nat)
  deriving DecidableEq, Repr

/-- What a run leaves behind besides memory: the calls of the error handler,
the calls of the allocator, and (for the safety analysis) every store into
the line buffer as a pair (index, value of `*size` at that moment). Each
list is oldest first. -/
structure Log where
  errs : List ErrCall
  allocs : List AllocCall
  writes : List (Nat × Nat)
  deriving DecidableEq, Repr

/-- The environment a run cannot control. `alloc k` is what the `k`-th
allocator call returns (`none` is `NULL`, otherwise the block's address);
`junk i` is the indeterminate content of byte `i` of fresh memory; `hdr` is
the expansion of `__FILE__` inside `kdm.h`. -/
structure Env where
  alloc : Nat → Option Nat
  junk : Nat → Byte
  hdr : String

/-- Library call `calloc (n, size)` as the `k`-th allocator call. -/
def calloc (env : Env) (k n size : Nat) : Option Buffer :=
  (env.alloc k).map fun a => ⟨a, List.replicate (n * size) 0⟩

/-- Library call `malloc (size)` as the `k`-th allocator call. -/
def malloc (env : Env) (k size : Nat) : Option Buffer :=
  (env.alloc k).map fun a => ⟨a, (List.range size).map env.junk⟩

/-- Library call `realloc (data, size)` as the `k`-th allocator call: on
success the old bytes are kept up to the new size and the rest is
indeterminate; on failure the old block is untouched. -/
def realloc (env : Env) (k : Nat) (data : Buffer) (size : Nat) : Option Buffer :=
  (env.alloc k).map fun a =>
    ⟨a, data.bytes.take size ++
      (List.range (size - data.bytes.length)).map fun i => env.junk (data.bytes.length + i)⟩

/-- The wrapper `km_calloc_` (`kdm.h` lines 131-142). The handler `onerr` is assumed to
return; its call is recorded in the log. -/
def km_calloc_ (env : Env) (log : Log) (n size : Nat) (file : String) (line : Int) :
    Option Buffer × Log :=
  let ret := calloc env log.allocs.length n size
  let log := { log with allocs := log.allocs ++ [.calloc n size] }
  match ret with
  | none => (none, { log with errs := log.errs ++ [⟨1, none, file, line⟩] })
  | some p => (some p, log)

/-- The wrapper `km_malloc_` (`kdm.h` lines 145-156). -/
def km_malloc_ (env : Env) (log : Log) (size : Nat) (file : String) (line : Int) :
    Option Buffer × Log :=
  let ret := malloc env log.allocs.length size
  let log := { log with allocs := log.allocs ++ [.malloc size] }
  match ret with
  | none => (none, { log with errs := log.errs ++ [⟨1, none, file, line⟩] })
  | some p => (some p, log)

/-- The wrapper `km_realloc_` (`kdm.h` lines 159-170). -/
def km_realloc_ (env : Env) (log : Log) (data : Buffer) (size : Nat) (file : String)
    (line : Int) : Option Buffer × Log :=
  let ret := realloc env log.allocs.length data size
  let log := { log with allocs := log.allocs ++ [.realloc data.addr size] }
  match ret with
  | none => (none, { log with errs := log.errs ++ [⟨1, none, file, line⟩] })
  | some p => (some p, log)

/-- What the caller of `km_readline_realloc_` can observe: the three pointer
arguments (`none` is `NULL`; `buf = some none` is `*buf == NULL`) with what
they point to, and the log. -/
structure World where
  buf : Option (Option Buffer)
  fp : Option FILE
  size : Option Nat
  log : Log
  deriving DecidableEq, Repr

/-- The state inside `km_readline_realloc_` once the arguments are known to
be non-null. -/
structure State where
  buf : Buffer
  size : Nat
  fp : FILE
  log : Log
  deriving DecidableEq, Repr

/-- The world a state stands for. -/
def State.toWorld (s : State) : World :=
  ⟨some (some s.buf), some s.fp, some s.size, s.log⟩

/-- How a run ends: a return value with the world left behind; a store
outside the allocation (undefined behaviour) at `index` in world `w`; or the
model's iteration budget ran out. -/
inductive Outcome
  | ret (r : Int) (w : World)
  | ub (w : World) (index : Nat)
  | nofuel
  deriving DecidableEq, Repr

/-- The store `(*buf)[i] = b`: recorded in the log, and defined only inside
the allocation. -/
def store (s : State) (i : Nat) (b : Byte) : Option State :=
  if i < s.buf.bytes.length then
    some { s with
      buf := { s.buf with bytes := s.buf.bytes.set i b }
      log := { s.log with writes := s.log.writes ++ [(i, s.size)] } }
  else none

/-! ## IO routines (`kdm.h` lines 238-267) -/

/-- Result of the inner `while`: fall through to the next byte, or leave the
function. -/
inductive Grow
  | next (s : State)
  | stop (o : Outcome)
  deriving DecidableEq, Repr

/-- The inner loop `while (len + 1 >= (*size) - 1) { ... }` (lines 253-260).
`fuel` bounds the number of evaluations of the loop condition. The
`km_realloc` macro passes `__FILE__` and `__LINE__` of line 256. -/
def growLoop (t : Target) (env : Env) : Nat → State → Nat → Grow
  | 0, _, _ => .stop .nofuel
  | fuel + 1, s, len =>
    if (s.size + t.wordMod - 1) % t.wordMod ≤ (len + 1) % t.wordMod then
      let newsize := (s.size + 1) % t.wordMod
      let s := { s with size := kmroundupz t newsize }
      let r := km_realloc_ env s.log s.buf ((1 * s.size) % t.wordMod) env.hdr 256
      let s := { s with log := r.2 }
      match r.1 with
      | none => .stop (.ret (-2) s.toWorld)
      | some newbuf => growLoop t env fuel { s with buf := newbuf } len
    else .next s

/-- Lines 262-264: store the terminator, then `EOF` if the end-of-file
indicator is set, else `len`. -/
def finish (t : Target) (s : State) (len : Nat) : Outcome :=
  match store s len 0 with
  | none => .ub s.toWorld len
  | some s =>
    if feof s.fp then .ret EOF s.toWorld else .ret (toSsize t len) s.toWorld

/-- The outer loop (line 252) with its body. `fuel` bounds the number of
evaluations of the loop condition; the inner loop gets what is left. -/
def readLoop (t : Target) (env : Env) : Nat → State → Nat → Outcome
  | 0, _, _ => .nofuel
  | fuel + 1, s, len =>
    -- `(*buf)[len] = fgetc(fp)`
    let r := fgetc s.fp
    let c := toChar r.1
    match store { s with fp := r.2 } len c with
    | none => .ub { s with fp := r.2 }.toWorld len
    | some s =>
      if charVal c = EOF then finish t s len
      else
        -- `(*buf)[len++] != '\n'`
        let len1 := (len + 1) % t.wordMod
        if charVal c = 10 then finish t s len1
        else
          match growLoop t env fuel s len1 with
          | .stop o => o
          | .next s => readLoop t env fuel s len1

/-- The function `km_readline_realloc_` (lines 243-265). `file` and `line` are the
caller's location; the handler `onerr` is assumed to return and its calls
are recorded in the log. -/
def km_readline_realloc_ (t : Target) (env : Env) (fuel : Nat) (w : World)
    (file : String) (line : Int) : Outcome :=
  match w.buf, w.fp, w.size with
  | some (some b), some fp, some size => readLoop t env fuel ⟨b, size, fp, w.log⟩ 0
  | _, _, _ =>
    .ret (-2) { w with log := { w.log with errs := w.log.errs ++ [⟨3, none, file, line⟩] } }

/-! ## Inputs used in examples -/

/-- An allocator that never fails and hands out address `1000 + k`. -/
def envOk : Env := ⟨fun k => some (1000 + k), fun _ => 0, "kdm.h"⟩

/-- An allocator that always fails. -/
def envFail : Env := ⟨fun _ => none, fun _ => 0, "kdm.h"⟩

/-- The empty log. -/
def Log.empty : Log := ⟨[], [], []⟩

/-- A world with a zeroed buffer of `cap` bytes at address 8, `*size = cap`
and a fresh stream holding `data`. -/
def world (cap : Nat) (data : List Byte) : World :=
  ⟨some (some ⟨8, List.replicate cap 0⟩), some ⟨data, false⟩, some cap, Log.empty⟩

/-! ## Auxiliary notions for the proofs -/

/-- The number `x` is `v` with every set bit copied to the `m - 1` positions
below it. -/
def Smeared (v x m : Nat) : Prop :=
  ∀ i, x.testBit i = true ↔ ∃ d, d < m ∧ v.testBit (i + d) = true

/-- The state after one successful growth step. -/
def grown (t : Target) (env : Env) (s : State) (a : Nat) : State :=
  let r := kmroundupz t (s.size + 1)
  { s with
    size := r
    buf := ⟨a, s.buf.bytes.take r ++
      (List.range (r - s.buf.bytes.length)).map fun i => env.junk (s.buf.bytes.length + i)⟩
    log := { s.log with allocs := s.log.allocs ++ [.realloc s.buf.addr r] } }

/-- The state after a store that is inside the allocation. -/
def stored (s : State) (i : Nat) (b : Byte) : State :=
  { s with
    buf := { s.buf with bytes := s.buf.bytes.set i b }
    log := { s.log with writes := s.log.writes ++ [(i, s.size)] } }

/-- The state after the loop body has handled one ordinary byte `b` at
offset `len` (given that the allocator succeeds). -/
def afterByte (t : Target) (env : Env) (s : State) (len : Nat) (b : Byte) : State :=
  let s1 := stored { s with fp := ⟨s.fp.data.tail, s.fp.eof⟩ } len b
  if len + 3 < s1.size then s1
  else grown t env s1 ((env.alloc s1.log.allocs.length).getD 0)

/-- The state after the loop has handled the ordinary bytes `bs` from offset
`len` on. -/
def afterBytes (t : Target) (env : Env) : List Byte → State → Nat → State
  | [], s, _ => s
  | b :: bs, s, len => afterBytes t env bs (afterByte t env s len b) (len + 1)

/-- The buffer is a valid allocation of `*size` bytes with room for two more
stores at `len`. -/
def Ready (t : Target) (s : State) (len : Nat) : Prop :=
  s.buf.bytes.length = s.size ∧ len + 2 ≤ s.size ∧ s.size < t.wordMod

/-- The return value of a run that returned. -/
def Outcome.value : Outcome → Option Int
  | .ret r _ => some r
  | _ => none

/-- The world a run left behind, unless the iteration budget ran out. -/
def Outcome.world : Outcome → Option World
  | .ret _ w => some w
  | .ub w _ => some w
  | .nofuel => none

/-- Between the logs `l0` and `l` the handler was not called and every
allocator call succeeded. -/
def NoFail (env : Env) (l0 l : Log) : Prop :=
  l.errs = l0.errs ∧ l0.allocs.length ≤ l.allocs.length ∧
    ∀ k, l0.allocs.length ≤ k → k < l.allocs.length → env.alloc k ≠ none

/-- Between the logs `l0` and `l` some allocator call returned `NULL`. -/
def Failed (env : Env) (l0 l : Log) : Prop :=
  ∃ k, l0.allocs.length ≤ k ∧ k < l.allocs.length ∧ env.alloc k = none

/-- The two ways a run started with log `l0` can end: without any failure,
returning `EOF` whenever the end-of-file indicator is set; or with `-2` right
after the one handler call of a failed `km_realloc`. -/
def Classified (env : Env) (l0 : Log) : Outcome → Prop
  | .nofuel => True
  | .ub w _ => NoFail env l0 w.log
  | .ret r w =>
    (NoFail env l0 w.log ∧ ∀ fp, w.fp = some fp → fp.eof = true → r = EOF) ∨
    (r = -2 ∧ w.log.errs = l0.errs ++ [⟨1, none, env.hdr, 256⟩] ∧ Failed env l0 w.log)

/-- The classification `Classified`, for the ways out of the inner loop. -/
def GrowClassified (env : Env) (l0 : Log) : Grow → Prop
  | .next s => NoFail env l0 s.log
  | .stop o => Classified env l0 o

/-- Every store recorded in the log was below the capacity then in force. -/
def WritesOk (l : Log) : Prop := ∀ p ∈ l.writes, p.1 < p.2

/-- The run made no store outside the allocation and every store it made was
below the capacity then in force. -/
def Safe : Outcome → Prop
  | .ub _ _ => False
  | .ret _ w => WritesOk w.log
  | .nofuel => True

/-- The notion `Safe`, for the ways out of the inner loop; on falling through,
three cells from `len` on are inside the buffer. -/
def GrowSafe (t : Target) (fp : FILE) (len : Nat) : Grow → Prop
  | .next s => s.buf.bytes.length = s.size ∧ len + 2 < s.size ∧ s.size < t.wordMod ∧
      WritesOk s.log ∧ s.fp = fp
  | .stop o => Safe o

/-- The capacity a growth step stores in `*size`: `kmroundupz` of the old
capacity plus one (lines 254-255). -/
def newSize (t : Target) (s : State) : Nat := kmroundupz t ((s.size + 1) % t.wordMod)

/-- The size a growth step asks `realloc` for (line 256). -/
def request (t : Target) (s : State) : Nat := (1 * newSize t s) % t.wordMod

/-- The state in which a growth step leaves the function when `realloc`
returns `NULL`: `*size` is already overwritten, `*buf` is the old block. -/
def growFail (t : Target) (env : Env) (s : State) : State :=
  { s with
    size := newSize t s
    log := { s.log with
      allocs := s.log.allocs ++ [.realloc s.buf.addr (request t s)]
      errs := s.log.errs ++ [⟨1, none, env.hdr, 256⟩] } }

/-- The state after a growth step whose `realloc` returned the address `a`. -/
def growOk (t : Target) (env : Env) (s : State) (a : Nat) : State :=
  { s with
    size := newSize t s
    buf := ⟨a, s.buf.bytes.take (request t s) ++
      (List.range (request t s - s.buf.bytes.length)).map
        fun i => env.junk (s.buf.bytes.length + i)⟩
    log := { s.log with allocs := s.log.allocs ++ [.realloc s.buf.addr (request t s)] } }

/-- The test of the inner `while`: `len + 1 >= (*size) - 1` in `size_t`
arithmetic. -/
def mustGrow (t : Target) (s : State) (len : Nat) : Prop :=
  (s.size + t.wordMod - 1) % t.wordMod ≤ (len + 1) % t.wordMod

/-- The capacity `size` against the capacity `c0` and the log `l0` the call
started with: unchanged with no allocator call since, or a power of two with
at least one allocator call since. -/
def CapOk (l0 : Log) (c0 size : Nat) (l : Log) : Prop :=
  (size = c0 ∧ l.allocs = l0.allocs) ∨
    ((∃ j, size = 2 ^ j) ∧ l0.allocs.length < l.allocs.length)

/-- What holds at the top of the outer loop in a call that started with the
log `l0` and a valid buffer of capacity `c0`: the buffer is a valid allocation
of `*size` bytes, nothing failed so far, and two cells at `len` are inside the
buffer (or the call has just started with capacity 1). -/
def Inv (t : Target) (env : Env) (l0 : Log) (c0 : Nat) (s : State) (len : Nat) : Prop :=
  s.buf.bytes.length = s.size ∧ s.size < t.wordMod ∧ NoFail env l0 s.log ∧
    CapOk l0 c0 s.size s.log ∧
    (len + 2 ≤ s.size ∨ (len = 0 ∧ s.size = 1 ∧ c0 = 1 ∧ s.log.allocs = l0.allocs))

/-- The ways a call that started with the log `l0` and a valid buffer of
capacity `c0` ends, given enough fuel: it returns with a valid buffer and no
failure; or it returns `-2` from a failed growth step, with `*size` already
the rounded-up capacity and `*buf` the block whose reallocation failed; or
(only with capacity 1) it stores outside the buffer at index 1. -/
def Settled (t : Target) (env : Env) (l0 : Log) (c0 : Nat) : Outcome → Prop
  | .nofuel => False
  | .ub w i =>
    c0 = 1 ∧ i = 1 ∧ w.size = some 1 ∧ w.log.allocs = l0.allocs ∧ w.log.errs = l0.errs
  | .ret r w =>
    ∃ (b : Buffer) (sz : Nat), w.buf = some (some b) ∧ w.size = some sz ∧ 1 ≤ sz ∧
      CapOk l0 c0 sz w.log ∧
      ((NoFail env l0 w.log ∧ b.bytes.length = sz) ∨
       (r = -2 ∧ Failed env l0 w.log ∧
        w.log.errs = l0.errs ++ [⟨1, none, env.hdr, 256⟩] ∧
        b.bytes.length < sz ∧ sz = kmroundupz t (b.bytes.length + 1) ∧
        w.log.allocs.getLast? = some (.realloc b.addr sz)))

/-- The notion `Settled`, for the ways out of the inner loop; on falling
through, three cells from `len` on are inside the buffer. -/
def GrowSettled (t : Target) (env : Env) (l0 : Log) (c0 : Nat) (fp : FILE) (len : Nat) :
    Grow → Prop
  | .next s =>
    s.buf.bytes.length = s.size ∧ s.size < t.wordMod ∧ NoFail env l0 s.log ∧
      CapOk l0 c0 s.size s.log ∧ len + 2 < s.size ∧ s.fp = fp
  | .stop o => Settled t env l0 c0 o

theorem testBit_or_shift (v s i : Nat) :
    (v ||| (v >>> s)).testBit i = (v.testBit i || v.testBit (s + i)) := by
  rw [Nat.testBit_or, Nat.testBit_shiftRight]

/-- A number all of whose bits below `n` are set and none above equals
`2 ^ n - 1`. -/
theorem eq_two_pow_sub_one_of_testBit (x n : Nat)
    (h : ∀ i, x.testBit i = decide (i < n)) : x = 2 ^ n - 1 := by
  apply Nat.eq_of_testBit_eq
  intro i
  rw [h i, Nat.testBit_two_pow_sub_one]

/-- Bits at or above position `k + 1` of a number below `2 ^ (k + 1)` are
clear. -/
theorem testBit_high_false {v k i : Nat} (hv : v < 2 ^ (k + 1)) (hi : k < i) :
    v.testBit i = false := by
  apply Nat.testBit_lt_two_pow
  calc v < 2 ^ (k + 1) := hv
    _ ≤ 2 ^ i := Nat.pow_le_pow_right (by decide) hi

/-- The top bit `k` of a number in `[2 ^ k, 2 ^ (k + 1))` is set. -/
theorem testBit_top {v k : Nat} (hlo : 2 ^ k ≤ v) (hhi : v < 2 ^ (k + 1)) :
    v.testBit k = true := by
  have hr : v - 2 ^ k < 2 ^ k := by
    have : 2 ^ (k + 1) = 2 ^ k + 2 ^ k := by rw [pow_succ]; omega
    omega
  have hv : v = 2 ^ k + (v - 2 ^ k) := by omega
  rw [hv, Nat.testBit_two_pow_add_eq, Nat.testBit_lt_two_pow hr]
  rfl

/-- Every positive number lies in exactly one binade. -/
theorem exists_binade {v : Nat} (hv : 0 < v) : ∃ k, 2 ^ k ≤ v ∧ v < 2 ^ (k + 1) :=
  ⟨Nat.log 2 v, Nat.pow_log_le_self 2 (by omega), Nat.lt_pow_succ_log_self (by decide) v⟩

/-- The exponent of a binade below `2 ^ n` is below `n`. -/
theorem binade_lt {v k n : Nat} (hlo : 2 ^ k ≤ v) (hn : v < 2 ^ n) : k < n := by
  by_contra h
  have : 2 ^ n ≤ 2 ^ k := Nat.pow_le_pow_right (by decide) (by omega)
  omega

theorem smeared_start (v : Nat) : Smeared v v 1 := by
  intro i
  constructor
  · intro h; exact ⟨0, by decide, by simpa using h⟩
  · rintro ⟨d, hd, h⟩
    have : d = 0 := by omega
    subst this; simpa using h

/-- One OR-shift step by the current spread doubles the spread. -/
theorem smeared_step {v x m : Nat} (h : Smeared v x m) :
    Smeared v (x ||| (x >>> m)) (m + m) := by
  intro i
  rw [testBit_or_shift, Bool.or_eq_true, h i, h (m + i)]
  constructor
  · rintro (⟨d, hd, hb⟩ | ⟨d, hd, hb⟩)
    · exact ⟨d, by omega, hb⟩
    · refine ⟨m + d, by omega, ?_⟩
      have e : i + (m + d) = m + i + d := by omega
      rw [e]; exact hb
  · rintro ⟨d, hd, hb⟩
    by_cases hdm : d < m
    · exact Or.inl ⟨d, hdm, hb⟩
    · refine Or.inr ⟨d - m, by omega, ?_⟩
      have e : m + i + (d - m) = i + d := by omega
      rw [e]; exact hb

theorem smear32_smeared (v : Nat) : Smeared v (smear32 v) 32 :=
  smeared_step (smeared_step (smeared_step (smeared_step (smeared_step (smeared_start v)))))

theorem smear64_smeared (v : Nat) : Smeared v (smear64 v) 64 :=
  smeared_step (smeared_step (smeared_step (smeared_step (smeared_step
    (smeared_step (smeared_start v))))))

/-- Smearing a number of the binade `k` over at least `k + 1` positions gives
`2 ^ (k + 1) - 1`. -/
theorem smeared_eq {v x m k : Nat} (h : Smeared v x m) (hk : k < m)
    (hlo : 2 ^ k ≤ v) (hhi : v < 2 ^ (k + 1)) : x = 2 ^ (k + 1) - 1 := by
  apply eq_two_pow_sub_one_of_testBit
  intro i
  by_cases hi : i < k + 1
  · have : x.testBit i = true :=
      (h i).2 ⟨k - i, by omega, by
        have e : i + (k - i) = k := by omega
        rw [e]; exact testBit_top hlo hhi⟩
    simp [this, hi]
  · have : x.testBit i = false := by
      rw [← Bool.not_eq_true]
      intro hx
      obtain ⟨d, _, hb⟩ := (h i).1 hx
      rw [testBit_high_false hhi (by omega)] at hb
      exact Bool.noConfusion hb
    simp [this, hi]

theorem smear32_eq {v k : Nat} (hk : k < 32) (hlo : 2 ^ k ≤ v) (hhi : v < 2 ^ (k + 1)) :
    smear32 v = 2 ^ (k + 1) - 1 :=
  smeared_eq (smear32_smeared v) hk hlo hhi

theorem smear64_eq {v k : Nat} (hk : k < 64) (hlo : 2 ^ k ≤ v) (hhi : v < 2 ^ (k + 1)) :
    smear64 v = 2 ^ (k + 1) - 1 :=
  smeared_eq (smear64_smeared v) hk hlo hhi

/-- The test `v & (v - 1) == 0` on a number of the binade `k` holds exactly
for `2 ^ k`. -/
theorem and_pred_eq_zero_iff {v k : Nat} (hlo : 2 ^ k ≤ v) (hhi : v < 2 ^ (k + 1)) :
    v &&& (v - 1) = 0 ↔ v = 2 ^ k := by
  constructor
  · intro h
    by_contra hne
    have h1 : (v - 1).testBit k = true := testBit_top (by omega) (by omega)
    have h2 : (v &&& (v - 1)).testBit k = true := by
      rw [Nat.testBit_and, testBit_top hlo hhi, h1]; rfl
    rw [h] at h2
    simp at h2
  · intro h
    subst h
    apply Nat.eq_of_testBit_eq
    intro i
    rw [Nat.testBit_and, Nat.testBit_two_pow, Nat.testBit_two_pow_sub_one, Nat.zero_testBit]
    by_cases e : k = i
    · subst e; simp
    · simp [e]

/-! ## What the rounding macros compute -/

theorem two_pow_succ_le {k n : Nat} (h : k < n) : 2 ^ (k + 1) ≤ 2 ^ n :=
  Nat.pow_le_pow_right (by decide) h

/-- Power-of-two branch of `kmroundup32`: the input is doubled. -/
theorem kmroundup32_two_pow {k : Nat} (hk : k < 31) : kmroundup32 (2 ^ k) = 2 ^ (k + 1) := by
  have hle : 2 ^ (k + 1) ≤ 2 ^ 31 := two_pow_succ_le hk
  have hpos : 0 < 2 ^ k := Nat.two_pow_pos k
  have hlt : 2 ^ k < 2 ^ (k + 1) := Nat.pow_lt_pow_right (by decide) (by omega)
  have e : (2 ^ k + 2 ^ 32 - 1) % 2 ^ 32 = 2 ^ k - 1 := by omega
  have hc : 2 ^ k &&& (2 ^ k - 1) = 0 := (and_pred_eq_zero_iff (le_refl _) hlt).2 rfl
  unfold kmroundup32
  rw [e, if_pos hc, smear32_eq (by omega) (le_refl _) hlt]
  omega

/-- Other branch of `kmroundup32`: the least power of two above the input. -/
theorem kmroundup32_between {v k : Nat} (hk : k < 31) (hlo : 2 ^ k < v)
    (hhi : v < 2 ^ (k + 1)) : kmroundup32 v = 2 ^ (k + 1) := by
  have hle : 2 ^ (k + 1) ≤ 2 ^ 31 := two_pow_succ_le hk
  have e : (v + 2 ^ 32 - 1) % 2 ^ 32 = v - 1 := by omega
  have hc : ¬ (v &&& (v - 1) = 0) := fun h =>
    absurd ((and_pred_eq_zero_iff (le_of_lt hlo) hhi).1 h) (by omega)
  unfold kmroundup32
  rw [e, if_neg hc, @smear32_eq (v - 1) k (by omega) (by omega) (by omega)]
  omega

/-- Power-of-two branch of `kmroundup64`: the input is doubled. -/
theorem kmroundup64_two_pow {k : Nat} (hk : k < 63) : kmroundup64 (2 ^ k) = 2 ^ (k + 1) := by
  have hle : 2 ^ (k + 1) ≤ 2 ^ 63 := two_pow_succ_le hk
  have hpos : 0 < 2 ^ k := Nat.two_pow_pos k
  have hlt : 2 ^ k < 2 ^ (k + 1) := Nat.pow_lt_pow_right (by decide) (by omega)
  have e : (2 ^ k + 2 ^ 64 - 1) % 2 ^ 64 = 2 ^ k - 1 := by omega
  have hc : 2 ^ k &&& (2 ^ k - 1) = 0 := (and_pred_eq_zero_iff (le_refl _) hlt).2 rfl
  unfold kmroundup64
  rw [e, if_pos hc, smear64_eq (by omega) (le_refl _) hlt]
  omega

/-- Other branch of `kmroundup64`: the least power of two above the input. -/
theorem kmroundup64_between {v k : Nat} (hk : k < 63) (hlo : 2 ^ k < v)
    (hhi : v < 2 ^ (k + 1)) : kmroundup64 v = 2 ^ (k + 1) := by
  have hle : 2 ^ (k + 1) ≤ 2 ^ 63 := two_pow_succ_le hk
  have e : (v + 2 ^ 64 - 1) % 2 ^ 64 = v - 1 := by omega
  have hc : ¬ (v &&& (v - 1) = 0) := fun h =>
    absurd ((and_pred_eq_zero_iff (le_of_lt hlo) hhi).1 h) (by omega)
  unfold kmroundup64
  rw [e, if_neg hc, @smear64_eq (v - 1) k (by omega) (by omega) (by omega)]
  omega

/-! ## Characters and word sizes -/

theorem toChar_val (b : Byte) : toChar (b.val : Int) = b := by
  apply Fin.ext
  have hb := b.isLt
  simp only [toChar, Fin.ofNat]
  omega

theorem toChar_EOF : toChar EOF = 255 := by decide

theorem charVal_eq_EOF_iff (b : Byte) : charVal b = EOF ↔ b = 255 := by
  have hb := b.isLt
  unfold charVal EOF
  constructor
  · intro h
    apply Fin.ext
    show b.val = 255
    split at h <;> omega
  · intro h
    subst h
    decide

theorem charVal_eq_nl_iff (b : Byte) : charVal b = 10 ↔ b = 10 := by
  have hb := b.isLt
  unfold charVal
  constructor
  · intro h
    apply Fin.ext
    show b.val = 10
    split at h <;> omega
  · intro h
    subst h
    decide

theorem wordMod_eq (t : Target) : t.wordMod = 2 * 2 ^ (t.bits - 1) := by
  cases t <;> decide

theorem half_ge (t : Target) : 2 ^ 31 ≤ 2 ^ (t.bits - 1) := by
  cases t <;> decide

/-- In range, `kmroundupz` returns a power of two strictly above its argument
and at most twice the argument. -/
theorem kmroundupz_spec (t : Target) {v : Nat} (h0 : 0 < v) (h1 : v < 2 ^ (t.bits - 1)) :
    v < kmroundupz t v ∧ kmroundupz t v ≤ 2 * v ∧ ∃ j, kmroundupz t v = 2 ^ j := by
  obtain ⟨k, hlo, hhi⟩ := exists_binade h0
  have h2 : 2 ^ (k + 1) = 2 * 2 ^ k := by rw [pow_succ]; omega
  have hk : k < t.bits - 1 := binade_lt hlo h1
  by_cases e : v = 2 ^ k
  · subst e
    have : kmroundupz t (2 ^ k) = 2 ^ (k + 1) := by
      cases t
      · exact kmroundup64_two_pow hk
      · exact kmroundup32_two_pow hk
    rw [this]
    exact ⟨by omega, by omega, k + 1, rfl⟩
  · have : kmroundupz t v = 2 ^ (k + 1) := by
      cases t
      · exact kmroundup64_between hk (by omega) hhi
      · exact kmroundup32_between hk (by omega) hhi
    rw [this]
    exact ⟨by omega, by omega, k + 1, rfl⟩

/-! ## The inner loop -/

theorem pred_mod {x W : Nat} (h1 : 0 < x) (h2 : x < W) : (x + W - 1) % W = x - 1 := by
  have e : x + W - 1 = (x - 1) + W := by omega
  rw [e, Nat.add_mod_right, Nat.mod_eq_of_lt (by omega)]

/-- The inner loop does nothing when two cells beyond `len` are free. -/
theorem growLoop_skip (t : Target) (env : Env) (s : State) (len fuel : Nat)
    (h : len + 2 < s.size) (hsz : s.size < t.wordMod) :
    growLoop t env (fuel + 1) s len = .next s := by
  have e1 : (s.size + t.wordMod - 1) % t.wordMod = s.size - 1 := pred_mod (by omega) hsz
  have e2 : (len + 1) % t.wordMod = len + 1 := Nat.mod_eq_of_lt (by omega)
  rw [growLoop, e1, e2, if_neg (by omega)]

/-- When fewer than two cells beyond `len` are free, the inner loop grows the
buffer exactly once (given that the allocator succeeds). -/
theorem growLoop_once (t : Target) (env : Env) (s : State) (len fuel a : Nat)
    (ha : env.alloc s.log.allocs.length = some a)
    (h1 : len + 1 ≤ s.size) (h2 : s.size ≤ len + 2)
    (hov : len + 3 < 2 ^ (t.bits - 1)) :
    growLoop t env (fuel + 2) s len = .next (grown t env s a) := by
  have hW := wordMod_eq t
  obtain ⟨r1, r2, -⟩ := @kmroundupz_spec t (s.size + 1) (by omega) (by omega)
  have e1 : (s.size + t.wordMod - 1) % t.wordMod = s.size - 1 := pred_mod (by omega) (by omega)
  have e2 : (len + 1) % t.wordMod = len + 1 := Nat.mod_eq_of_lt (by omega)
  have e3 : (s.size + 1) % t.wordMod = s.size + 1 := Nat.mod_eq_of_lt (by omega)
  have e4 : (1 * kmroundupz t (s.size + 1)) % t.wordMod = kmroundupz t (s.size + 1) := by
    rw [Nat.one_mul]; exact Nat.mod_eq_of_lt (by omega)
  rw [growLoop, e1, e2, if_pos (by omega)]
  simp only [e3, e4, km_realloc_, realloc, ha, Option.map_some']
  have h3 : len + 2 < (grown t env s a).size := by
    show len + 2 < kmroundupz t (s.size + 1)
    omega
  have h4 : (grown t env s a).size < t.wordMod := by
    show kmroundupz t (s.size + 1) < t.wordMod
    omega
  exact growLoop_skip t env (grown t env s a) len fuel h3 h4

/-! ## The outer loop: how it ends -/

theorem store_eq {s : State} {i : Nat} (b : Byte) (h : i < s.buf.bytes.length) :
    store s i b = some (stored s i b) := by
  simp [store, stored, h]

theorem store_none {s : State} {i : Nat} (b : Byte) (h : ¬ i < s.buf.bytes.length) :
    store s i b = none := by
  simp [store, h]

theorem finish_eq (t : Target) (s : State) (len : Nat) (h : len < s.buf.bytes.length) :
    finish t s len =
      if s.fp.eof then .ret EOF (stored s len 0).toWorld
      else .ret (toSsize t len) (stored s len 0).toWorld := by
  simp [finish, store_eq 0 h, feof, stored]

theorem toSsize_small (t : Target) {n : Nat} (h : n < 2 ^ (t.bits - 1)) :
    toSsize t n = (n : Int) := by
  simp [toSsize, h]

/-- One iteration of the outer loop on a line terminator. -/
theorem readLoop_nl (t : Target) (env : Env) (s : State) (len fuel : Nat) (rest : List Byte)
    (hfp : s.fp = ⟨10 :: rest, false⟩) (hR : Ready t s len)
    (hov : len + 1 < 2 ^ (t.bits - 1)) :
    readLoop t env (fuel + 1) s len =
      .ret ((len : Int) + 1)
        (stored (stored { s with fp := ⟨rest, false⟩ } len 10) (len + 1) 0).toWorld := by
  obtain ⟨h1, h2, h3⟩ := hR
  have hW := wordMod_eq t
  have e2 : (len + 1) % t.wordMod = len + 1 := Nat.mod_eq_of_lt (by omega)
  have hs : store { s with fp := ⟨rest, false⟩ } len 10 =
      some (stored { s with fp := ⟨rest, false⟩ } len 10) :=
    store_eq 10 (by show len < s.buf.bytes.length; omega)
  have hl : len + 1 < (stored { s with fp := ⟨rest, false⟩ } len 10).buf.bytes.length := by
    simp only [stored, List.length_set]; omega
  rw [readLoop]
  simp only [fgetc, hfp, toChar_val, Bool.false_eq_true, if_false, hs, e2]
  rw [if_neg (by decide), if_pos (by decide), finish_eq t _ _ hl]
  simp only [stored, Bool.false_eq_true, if_false, toSsize_small t hov]
  rfl

/-- One iteration of the outer loop at end of stream. -/
theorem readLoop_eof (t : Target) (env : Env) (s : State) (len fuel : Nat)
    (hfp : s.fp.data = []) (hlen : len < s.buf.bytes.length) :
    readLoop t env (fuel + 1) s len =
      .ret EOF (stored (stored { s with fp := ⟨[], true⟩ } len 255) len 0).toWorld := by
  have hfg : fgetc s.fp = (EOF, ⟨[], true⟩) := by
    unfold fgetc
    by_cases he : s.fp.eof = true
    · rw [if_pos he]
      have : s.fp = ⟨[], true⟩ := by
        cases hs : s.fp with
        | mk d e => rw [hs] at hfp he; simp at hfp he; rw [hfp, he]
      rw [this]
    · rw [if_neg he, hfp]
  have hs : store { s with fp := ⟨[], true⟩ } len 255 =
      some (stored { s with fp := ⟨[], true⟩ } len 255) :=
    store_eq 255 hlen
  have hl : len < (stored { s with fp := ⟨[], true⟩ } len 255).buf.bytes.length := by
    simp only [stored, List.length_set]; exact hlen
  rw [readLoop]
  simp only [hfg, toChar_EOF, hs]
  rw [if_pos (by decide), finish_eq t _ _ hl]
  simp [stored]

/-! ## The outer loop: one ordinary byte -/

theorem grown_length (t : Target) (env : Env) (s : State) (a : Nat)
    (h : s.buf.bytes.length ≤ kmroundupz t (s.size + 1)) :
    (grown t env s a).buf.bytes.length = (grown t env s a).size := by
  simp only [grown, List.length_append, List.length_take, List.length_map, List.length_range]
  omega

theorem grown_take (t : Target) (env : Env) (s : State) (a n : Nat)
    (h : s.buf.bytes.length ≤ kmroundupz t (s.size + 1)) (hn : n ≤ s.buf.bytes.length) :
    (grown t env s a).buf.bytes.take n = s.buf.bytes.take n := by
  simp only [grown]
  rw [List.take_of_length_le h, List.take_append_of_le_length hn]

/-- One iteration of the outer loop on an ordinary byte. -/
theorem readLoop_byte (t : Target) (env : Env) (hok : ∀ k, env.alloc k ≠ none)
    (s : State) (len fuel : Nat) (b : Byte) (rest : List Byte)
    (hfp : s.fp = ⟨b :: rest, false⟩) (hb1 : b ≠ 10) (hb2 : b ≠ 255)
    (hR : Ready t s len) (hov : len + 4 < 2 ^ (t.bits - 1)) :
    readLoop t env (fuel + 3) s len =
      readLoop t env (fuel + 2) (afterByte t env s len b) (len + 1) := by
  obtain ⟨h1, h2, h3⟩ := hR
  have hW := wordMod_eq t
  have e2 : (len + 1) % t.wordMod = len + 1 := Nat.mod_eq_of_lt (by omega)
  have hs : store { s with fp := ⟨rest, false⟩ } len b =
      some (stored { s with fp := ⟨rest, false⟩ } len b) :=
    store_eq b (by show len < s.buf.bytes.length; omega)
  have hc1 : ¬ charVal b = EOF := fun h => hb2 ((charVal_eq_EOF_iff b).1 h)
  have hc2 : ¬ charVal b = 10 := fun h => hb1 ((charVal_eq_nl_iff b).1 h)
  have hab : afterByte t env s len b =
      if len + 3 < s.size then stored { s with fp := ⟨rest, false⟩ } len b
      else grown t env (stored { s with fp := ⟨rest, false⟩ } len b)
        ((env.alloc s.log.allocs.length).getD 0) := by
    simp [afterByte, hfp, stored]
  rw [readLoop]
  simp only [fgetc, hfp, toChar_val, Bool.false_eq_true, if_false, hs, e2]
  rw [if_neg hc1, if_neg hc2, hab]
  by_cases hg : len + 3 < s.size
  · rw [if_pos hg, growLoop_skip t env _ (len + 1) (fuel + 1) (by simpa [stored] using hg)
      (by simpa [stored] using h3)]
  · rw [if_neg hg]
    obtain ⟨a, ha⟩ := Option.ne_none_iff_exists'.1 (hok s.log.allocs.length)
    rw [growLoop_once t env _ (len + 1) fuel a (by simpa [stored] using ha)
      (by simp [stored]; omega) (by simp [stored]; omega) (by omega)]
    simp [ha, stored]

/-! ## The outer loop: a run of ordinary bytes -/

theorem take_set_same {α : Type} (l : List α) (i : Nat) (a : α) :
    (l.set i a).take i = l.take i := by
  induction l generalizing i with
  | nil => simp
  | cons x xs ih =>
    cases i with
    | zero => simp
    | succ j => simp [ih]

theorem take_set_succ {α : Type} (l : List α) (i : Nat) (a : α) (h : i < l.length) :
    (l.set i a).take (i + 1) = l.take i ++ [a] := by
  rw [List.take_succ, List.getElem?_set_self h, take_set_same]
  rfl

theorem stored_take_succ (s : State) (i : Nat) (b : Byte) (h : i < s.buf.bytes.length) :
    (stored s i b).buf.bytes.take (i + 1) = s.buf.bytes.take i ++ [b] :=
  take_set_succ s.buf.bytes i b h

theorem afterByte_fp (t : Target) (env : Env) (s : State) (len : Nat) (b : Byte) :
    (afterByte t env s len b).fp = ⟨s.fp.data.tail, s.fp.eof⟩ := by
  unfold afterByte
  simp only
  split <;> rfl

theorem afterByte_errs (t : Target) (env : Env) (s : State) (len : Nat) (b : Byte) :
    (afterByte t env s len b).log.errs = s.log.errs := by
  unfold afterByte
  simp only
  split <;> rfl

theorem afterByte_ready (t : Target) (env : Env) (s : State) (len : Nat) (b : Byte)
    (hR : Ready t s len) (hov : len + 4 < 2 ^ (t.bits - 1)) :
    Ready t (afterByte t env s len b) (len + 1) := by
  obtain ⟨h1, h2, h3⟩ := hR
  have hW := wordMod_eq t
  unfold afterByte
  simp only
  split
  · next hg =>
    refine ⟨?_, ?_, ?_⟩
    · simpa [stored] using h1
    · simp only [stored] at hg ⊢; omega
    · simpa [stored] using h3
  · next hg =>
    simp only [stored] at hg
    obtain ⟨r1, r2, -⟩ := @kmroundupz_spec t (s.size + 1) (by omega) (by omega)
    refine ⟨?_, ?_, ?_⟩
    · apply grown_length
      simp only [stored, List.length_set]; omega
    · show len + 1 + 2 ≤ kmroundupz t (s.size + 1); omega
    · show kmroundupz t (s.size + 1) < t.wordMod; omega

theorem afterByte_take (t : Target) (env : Env) (s : State) (len : Nat) (b : Byte)
    (hR : Ready t s len) (hov : len + 4 < 2 ^ (t.bits - 1)) :
    (afterByte t env s len b).buf.bytes.take (len + 1) = s.buf.bytes.take len ++ [b] := by
  obtain ⟨h1, h2, h3⟩ := hR
  have hW := wordMod_eq t
  unfold afterByte
  simp only
  split
  · exact stored_take_succ _ len b (by show len < s.buf.bytes.length; omega)
  · next hg =>
    simp only [stored] at hg
    obtain ⟨r1, r2, -⟩ := @kmroundupz_spec t (s.size + 1) (by omega) (by omega)
    rw [grown_take]
    · exact stored_take_succ _ len b (by show len < s.buf.bytes.length; omega)
    · simp only [stored, List.length_set]; omega
    · simp only [stored, List.length_set]; omega

theorem afterBytes_fp (t : Target) (env : Env) (pre rest : List Byte) (e : Bool) :
    ∀ (s : State) (len : Nat), s.fp = ⟨pre ++ rest, e⟩ →
      (afterBytes t env pre s len).fp = ⟨rest, e⟩ := by
  induction pre with
  | nil => intro s len h; simpa [afterBytes] using h
  | cons b bs ih =>
    intro s len h
    rw [afterBytes]
    apply ih
    rw [afterByte_fp, h]
    rfl

theorem afterBytes_errs (t : Target) (env : Env) (pre : List Byte) :
    ∀ (s : State) (len : Nat), (afterBytes t env pre s len).log.errs = s.log.errs := by
  induction pre with
  | nil => intro s len; rfl
  | cons b bs ih =>
    intro s len
    rw [afterBytes, ih, afterByte_errs]

theorem afterBytes_ready (t : Target) (env : Env) (pre : List Byte) :
    ∀ (s : State) (len : Nat), Ready t s len → len + pre.length + 3 < 2 ^ (t.bits - 1) →
      Ready t (afterBytes t env pre s len) (len + pre.length) := by
  induction pre with
  | nil => intro s len h _; simpa [afterBytes] using h
  | cons b bs ih =>
    intro s len h hov
    simp only [List.length_cons] at hov
    rw [afterBytes]
    have := ih (afterByte t env s len b) (len + 1)
      (afterByte_ready t env s len b h (by omega)) (by omega)
    simpa [Nat.add_assoc, Nat.add_comm 1] using this

theorem afterBytes_take (t : Target) (env : Env) (pre : List Byte) :
    ∀ (s : State) (len : Nat), Ready t s len → len + pre.length + 3 < 2 ^ (t.bits - 1) →
      (afterBytes t env pre s len).buf.bytes.take (len + pre.length) =
        s.buf.bytes.take len ++ pre := by
  induction pre with
  | nil => intro s len _ _; simp [afterBytes]
  | cons b bs ih =>
    intro s len h hov
    simp only [List.length_cons] at hov
    rw [afterBytes]
    have := ih (afterByte t env s len b) (len + 1)
      (afterByte_ready t env s len b h (by omega)) (by omega)
    rw [afterByte_take t env s len b h (by omega)] at this
    simpa [Nat.add_assoc, Nat.add_comm 1] using this

/-- The outer loop over a run of ordinary bytes. -/
theorem readLoop_bytes (t : Target) (env : Env) (hok : ∀ k, env.alloc k ≠ none)
    (pre rest : List Byte) (hpre : ∀ b ∈ pre, b ≠ 10 ∧ b ≠ 255) (fuel : Nat) :
    ∀ (s : State) (len : Nat), s.fp = ⟨pre ++ rest, false⟩ → Ready t s len →
      len + pre.length + 3 < 2 ^ (t.bits - 1) →
      readLoop t env (fuel + 2 + pre.length) s len =
        readLoop t env (fuel + 2) (afterBytes t env pre s len) (len + pre.length) := by
  induction pre with
  | nil => intro s len _ _ _; rfl
  | cons b bs ih =>
    intro s len hfp hR hov
    simp only [List.length_cons] at hov
    have hb := hpre b (List.mem_cons_self b bs)
    have e : fuel + 2 + (b :: bs).length = (fuel + bs.length) + 3 := by
      simp only [List.length_cons]; omega
    rw [e, readLoop_byte t env hok s len (fuel + bs.length) b (bs ++ rest) hfp hb.1 hb.2 hR
      (by omega)]
    have e2 : fuel + bs.length + 2 = fuel + 2 + bs.length := by omega
    rw [e2, ih (fun x hx => hpre x (List.mem_cons_of_mem b hx)) (afterByte t env s len b) (len + 1)
      (by rw [afterByte_fp, hfp]; rfl) (afterByte_ready t env s len b hR (by omega)) (by omega)]
    rw [afterBytes]
    have e3 : len + 1 + bs.length = len + (b :: bs).length := by
      simp only [List.length_cons]; omega
    rw [e3]

/-! ## Failure analysis: every run is classified -/

theorem noFail_refl (env : Env) (l : Log) : NoFail env l l :=
  ⟨rfl, le_refl _, fun k h1 h2 => absurd h2 (by omega)⟩

theorem noFail_trans {env : Env} {a b c : Log} (h1 : NoFail env a b) (h2 : NoFail env b c) :
    NoFail env a c := by
  obtain ⟨e1, l1, f1⟩ := h1
  obtain ⟨e2, l2, f2⟩ := h2
  refine ⟨e2.trans e1, le_trans l1 l2, fun k hk1 hk2 => ?_⟩
  by_cases h : k < b.allocs.length
  · exact f1 k hk1 h
  · exact f2 k (by omega) hk2

theorem noFail_not_failed {env : Env} {a b : Log} (h : NoFail env a b) : ¬ Failed env a b := by
  rintro ⟨k, h1, h2, h3⟩
  exact h.2.2 k h1 h2 h3

theorem classified_mono {env : Env} {a b : Log} (h : NoFail env a b) :
    ∀ {o : Outcome}, Classified env b o → Classified env a o
  | .nofuel, _ => trivial
  | .ub _ _, ho => noFail_trans h ho
  | .ret _ _, ho => by
    rcases ho with ⟨h1, h2⟩ | ⟨h1, h2, k, hk1, hk2, hk3⟩
    · exact Or.inl ⟨noFail_trans h h1, h2⟩
    · exact Or.inr ⟨h1, by rw [h2, h.1], k, le_trans h.2.1 hk1, hk2, hk3⟩

theorem growClassified_mono {env : Env} {a b : Log} (h : NoFail env a b) :
    ∀ {g : Grow}, GrowClassified env b g → GrowClassified env a g
  | .next _, hg => noFail_trans h hg
  | .stop _, hg => classified_mono h hg

theorem km_realloc__none (env : Env) (log : Log) (data : Buffer) (size : Nat) (file : String)
    (line : Int) (ha : env.alloc log.allocs.length = none) :
    km_realloc_ env log data size file line =
      (none, { log with
        allocs := log.allocs ++ [.realloc data.addr size]
        errs := log.errs ++ [⟨1, none, file, line⟩] }) := by
  simp [km_realloc_, realloc, ha]

theorem km_realloc__some (env : Env) (log : Log) (data : Buffer) (size : Nat) (file : String)
    (line : Int) (a : Nat) (ha : env.alloc log.allocs.length = some a) :
    km_realloc_ env log data size file line =
      (some ⟨a, data.bytes.take size ++
          (List.range (size - data.bytes.length)).map fun i => env.junk (data.bytes.length + i)⟩,
        { log with allocs := log.allocs ++ [.realloc data.addr size] }) := by
  simp [km_realloc_, realloc, ha]

theorem noFail_alloc (env : Env) (log : Log) (c : AllocCall) (a : Nat)
    (ha : env.alloc log.allocs.length = some a) :
    NoFail env log { log with allocs := log.allocs ++ [c] } := by
  refine ⟨rfl, by simp, fun k h1 h2 => ?_⟩
  have : k = log.allocs.length := by
    simp only [List.length_append, List.length_singleton] at h2; omega
  rw [this, ha]; simp

/-- Every way out of the inner loop is classified. -/
theorem growLoop_classified (t : Target) (env : Env) (len : Nat) :
    ∀ (fuel : Nat) (s : State), GrowClassified env s.log (growLoop t env fuel s len) := by
  intro fuel
  induction fuel with
  | zero => intro s; exact trivial
  | succ f ih =>
    intro s
    rw [growLoop]
    split
    · cases ha : env.alloc s.log.allocs.length with
      | none =>
        simp only [km_realloc__none env s.log _ _ _ _ ha]
        exact Or.inr ⟨rfl, rfl, s.log.allocs.length, le_refl _,
          by simp [State.toWorld], ha⟩
      | some a =>
        simp only [km_realloc__some env s.log _ _ _ _ a ha]
        exact growClassified_mono (noFail_alloc env s.log _ a ha) (ih _)
    · exact noFail_refl env s.log

theorem noFail_of_same (env : Env) {l0 l : Log} (h1 : l.errs = l0.errs)
    (h2 : l.allocs = l0.allocs) : NoFail env l0 l :=
  ⟨h1, by rw [h2], fun k hk1 hk2 => absurd hk2 (by rw [h2]; omega)⟩

theorem finish_classified (t : Target) (env : Env) (s : State) (len : Nat) :
    Classified env s.log (finish t s len) := by
  unfold finish
  by_cases h : len < s.buf.bytes.length
  · rw [store_eq 0 h]
    simp only [feof]
    split
    · next he =>
      exact Or.inl ⟨noFail_of_same env rfl rfl,
        fun _ _ _ => rfl⟩
    · next he =>
      refine Or.inl ⟨noFail_of_same env rfl rfl, ?_⟩
      intro fp hfp hf
      simp only [State.toWorld, stored, Option.some.injEq] at hfp
      rw [← hfp] at hf
      exact absurd hf he
  · rw [store_none 0 h]
    exact noFail_refl env s.log

/-- Every way out of the outer loop is classified. -/
theorem readLoop_classified (t : Target) (env : Env) :
    ∀ (fuel : Nat) (s : State) (len : Nat), Classified env s.log (readLoop t env fuel s len) := by
  intro fuel
  induction fuel with
  | zero => intro s len; exact trivial
  | succ f ih =>
    intro s len
    rw [readLoop]
    simp only
    by_cases h : len < s.buf.bytes.length
    · rw [store_eq (s := { s with fp := (fgetc s.fp).2 }) _ h]
      simp only
      split
      · exact finish_classified t env _ len
      · split
        · exact finish_classified t env _ _
        · have hg := growLoop_classified t env ((len + 1) % t.wordMod) f
            (stored { s with fp := (fgetc s.fp).2 } len (toChar (fgetc s.fp).1))
          revert hg
          cases growLoop t env f
            (stored { s with fp := (fgetc s.fp).2 } len (toChar (fgetc s.fp).1))
            ((len + 1) % t.wordMod) with
          | stop o => intro hg; exact hg
          | next s2 =>
            intro hg
            exact classified_mono hg (ih s2 _)
    · rw [store_none (s := { s with fp := (fgetc s.fp).2 }) _ h]
      exact noFail_refl env s.log

/-- Every run of `km_readline_realloc_` is classified. -/
theorem readline_classified (t : Target) (env : Env) (fuel : Nat) (w : World) (file : String)
    (line : Int) : 
    Classified env w.log (km_readline_realloc_ t env fuel w file line) ∨
      ((w.buf = none ∨ w.buf = some none ∨ w.fp = none ∨ w.size = none) ∧
        km_readline_realloc_ t env fuel w file line =
          .ret (-2) { w with log := { w.log with errs := w.log.errs ++ [⟨3, none, file, line⟩] } }) := by
  obtain ⟨buf, fp, size, log⟩ := w
  rcases buf with _ | _ | b
  · exact Or.inr ⟨Or.inl rfl, rfl⟩
  · exact Or.inr ⟨Or.inr (Or.inl rfl), rfl⟩
  · cases fp with
    | none => exact Or.inr ⟨Or.inr (Or.inr (Or.inl rfl)), rfl⟩
    | some f =>
      cases size with
      | none => exact Or.inr ⟨Or.inr (Or.inr (Or.inr rfl)), rfl⟩
      | some n => exact Or.inl (readLoop_classified t env fuel ⟨b, n, f, log⟩ 0)

/-! ## Whole calls -/

/-- A whole call on a stream whose next line is `line` followed by the
terminator: the exact outcome. -/
theorem readline_line (t : Target) (env : Env) (hok : ∀ k, env.alloc k ≠ none)
    (buf : Buffer) (line rest : List Byte) (log : Log) (fuel : Nat) (file : String) (ln : Int)
    (hcap : 2 ≤ buf.bytes.length) (hsz : buf.bytes.length < t.wordMod)
    (hline : ∀ b ∈ line, b ≠ 10 ∧ b ≠ 255)
    (hov : line.length + 3 < 2 ^ (t.bits - 1)) (hfuel : line.length + 2 ≤ fuel) :
    km_readline_realloc_ t env fuel
        ⟨some (some buf), some ⟨line ++ 10 :: rest, false⟩, some buf.bytes.length, log⟩ file ln =
      .ret ((line.length : Int) + 1)
        (stored (stored
          { afterBytes t env line ⟨buf, buf.bytes.length, ⟨line ++ 10 :: rest, false⟩, log⟩ 0
            with fp := ⟨rest, false⟩ } line.length 10) (line.length + 1) 0).toWorld := by
  obtain ⟨f, rfl⟩ : ∃ f, fuel = f + 2 + line.length := ⟨fuel - (line.length + 2), by omega⟩
  have hR : Ready t ⟨buf, buf.bytes.length, ⟨line ++ 10 :: rest, false⟩, log⟩ 0 :=
    ⟨rfl, by simpa using hcap, hsz⟩
  have hR' := afterBytes_ready t env line _ 0 hR (by omega)
  have hfp := afterBytes_fp t env line (10 :: rest) false
    ⟨buf, buf.bytes.length, ⟨line ++ 10 :: rest, false⟩, log⟩ 0 rfl
  simp only [Nat.zero_add] at hR'
  show readLoop t env (f + 2 + line.length) _ 0 = _
  rw [readLoop_bytes t env hok line (10 :: rest) hline f _ 0 rfl hR (by omega)]
  simp only [Nat.zero_add]
  rw [readLoop_nl t env _ line.length (f + 1) rest hfp hR' (by omega)]

/-- A call with a null argument: the exact outcome. -/
theorem readline_null (t : Target) (env : Env) (fuel : Nat) (w : World) (file : String)
    (ln : Int) (h : w.buf = none ∨ w.buf = some none ∨ w.fp = none ∨ w.size = none) :
    km_readline_realloc_ t env fuel w file ln =
      .ret (-2) { w with log := { w.log with errs := w.log.errs ++ [⟨3, none, file, ln⟩] } } := by
  obtain ⟨buf, fp, size, log⟩ := w
  rcases buf with _ | _ | b
  · rfl
  · rfl
  · cases fp with
    | none => rfl
    | some f =>
      cases size with
      | none => rfl
      | some n => simp at h

/-- A run that left a world in which an allocator call failed returned `-2`
right after the handler call of `km_realloc_`. -/
theorem readline_failed (t : Target) (env : Env) (fuel : Nat) (w : World) (file : String)
    (ln : Int) (w' : World)
    (hrun : (km_readline_realloc_ t env fuel w file ln).world = some w')
    (hfail : Failed env w.log w'.log) :
    km_readline_realloc_ t env fuel w file ln = .ret (-2) w' ∧
      w'.log.errs = w.log.errs ++ [⟨1, none, env.hdr, 256⟩] := by
  rcases readline_classified t env fuel w file ln with hc | ⟨_, he⟩
  · revert hrun hc
    cases km_readline_realloc_ t env fuel w file ln with
    | nofuel => intro hrun; simp [Outcome.world] at hrun
    | ub w1 i =>
      intro hrun hc
      simp only [Outcome.world, Option.some.injEq] at hrun
      subst hrun
      exact absurd hfail (noFail_not_failed hc)
    | ret r w1 =>
      intro hrun hc
      simp only [Outcome.world, Option.some.injEq] at hrun
      subst hrun
      rcases hc with ⟨h1, _⟩ | ⟨h1, h2, _⟩
      · exact absurd hfail (noFail_not_failed h1)
      · subst h1
        exact ⟨rfl, h2⟩
  · rw [he] at hrun
    simp only [Outcome.world, Option.some.injEq] at hrun
    subst hrun
    obtain ⟨k, h1, h2, _⟩ := hfail
    exact absurd h2 (by simp only; omega)

/-- A run on non-null arguments that returned without a failed allocator call
and left the end-of-file indicator set returned `EOF`. -/
theorem readline_eof_value (t : Target) (env : Env) (fuel : Nat) (b : Buffer) (fp : FILE)
    (n : Nat) (log : Log) (file : String) (ln : Int) (r : Int) (w' : World) (fp' : FILE)
    (hret : km_readline_realloc_ t env fuel ⟨some (some b), some fp, some n, log⟩ file ln =
      .ret r w')
    (hclean : ¬ Failed env log w'.log) (hfp : w'.fp = some fp') (heof : fp'.eof = true) :
    r = EOF := by
  have hc := readLoop_classified t env fuel ⟨b, n, fp, log⟩ 0
  have hret' : readLoop t env fuel ⟨b, n, fp, log⟩ 0 = .ret r w' := hret
  rw [hret'] at hc
  rcases hc with ⟨_, h⟩ | ⟨_, _, h⟩
  · exact h fp' hfp heof
  · exact absurd h hclean

theorem stored_writesOk (s : State) (i : Nat) (b : Byte) (hw : WritesOk s.log)
    (hi : i < s.size) : WritesOk (stored s i b).log := by
  intro p hp
  simp only [stored, List.mem_append, List.mem_singleton] at hp
  rcases hp with hp | rfl
  · exact hw p hp
  · exact hi

theorem finish_safe (t : Target) (s : State) (len : Nat) (hlen : s.buf.bytes.length = s.size)
    (h : len < s.size) (hw : WritesOk s.log) : Safe (finish t s len) := by
  rw [finish_eq t s len (by omega)]
  split <;> exact stored_writesOk s len 0 hw h

/-- The inner loop is safe, whatever the allocator answers. -/
theorem growLoop_safe (t : Target) (env : Env) (fuel : Nat) (s : State) (len : Nat)
    (hlen : s.buf.bytes.length = s.size) (h1 : len + 1 ≤ s.size)
    (hov : len + 3 < 2 ^ (t.bits - 1)) (hsz : s.size < t.wordMod) (hw : WritesOk s.log) :
    GrowSafe t s.fp len (growLoop t env fuel s len) := by
  have hW := wordMod_eq t
  by_cases hg : len + 2 < s.size
  · cases fuel with
    | zero => exact trivial
    | succ f =>
      rw [growLoop_skip t env s len f hg hsz]
      exact ⟨hlen, hg, hsz, hw, rfl⟩
  · cases fuel with
    | zero => exact trivial
    | succ f =>
      cases ha : env.alloc s.log.allocs.length with
      | none =>
        have e1 : (s.size + t.wordMod - 1) % t.wordMod = s.size - 1 :=
          pred_mod (by omega) (by omega)
        have e2 : (len + 1) % t.wordMod = len + 1 := Nat.mod_eq_of_lt (by omega)
        rw [growLoop, e1, e2, if_pos (by omega)]
        simp only [km_realloc__none env s.log _ _ _ _ ha]
        exact hw
      | some a =>
        cases f with
        | zero =>
          have e1 : (s.size + t.wordMod - 1) % t.wordMod = s.size - 1 :=
            pred_mod (by omega) (by omega)
          have e2 : (len + 1) % t.wordMod = len + 1 := Nat.mod_eq_of_lt (by omega)
          rw [growLoop, e1, e2, if_pos (by omega)]
          simp only [km_realloc__some env s.log _ _ _ _ a ha]
          exact trivial
        | succ f' =>
          obtain ⟨r1, r2, -⟩ := @kmroundupz_spec t (s.size + 1) (by omega) (by omega)
          rw [growLoop_once t env s len f' a ha h1 (by omega) hov]
          refine ⟨grown_length t env s a (by omega), ?_, ?_, hw, rfl⟩
          · show len + 2 < kmroundupz t (s.size + 1); omega
          · show kmroundupz t (s.size + 1) < t.wordMod; omega

/-- The outer loop is safe from every state with two free cells at `len`. -/
theorem readLoop_safe (t : Target) (env : Env) :
    ∀ (fuel : Nat) (s : State) (len : Nat), Ready t s len → WritesOk s.log →
      len + s.fp.data.length + 3 < 2 ^ (t.bits - 1) → Safe (readLoop t env fuel s len) := by
  intro fuel
  induction fuel with
  | zero => intro s len _ _ _; exact trivial
  | succ f ih =>
    intro s len hR hw hov
    obtain ⟨h1, h2, h3⟩ := hR
    have hW := wordMod_eq t
    have e2 : (len + 1) % t.wordMod = len + 1 := Nat.mod_eq_of_lt (by omega)
    rw [readLoop]
    simp only
    rw [store_eq (s := { s with fp := (fgetc s.fp).2 }) _ (by show len < s.buf.bytes.length; omega)]
    simp only [e2]
    have hw1 : WritesOk (stored { s with fp := (fgetc s.fp).2 } len (toChar (fgetc s.fp).1)).log :=
      stored_writesOk _ len _ hw (by show len < s.size; omega)
    have hl1 : (stored { s with fp := (fgetc s.fp).2 } len
        (toChar (fgetc s.fp).1)).buf.bytes.length =
        (stored { s with fp := (fgetc s.fp).2 } len (toChar (fgetc s.fp).1)).size := by
      simp only [stored, List.length_set]; exact h1
    split
    · exact finish_safe t _ len hl1 (by show len < s.size; omega) hw1
    · next hne =>
      split
      · exact finish_safe t _ (len + 1) hl1 (by show len + 1 < s.size; omega) hw1
      · -- an ordinary byte was read, so the stream was not empty
        have hdata : (fgetc s.fp).2.data.length + 1 = s.fp.data.length := by
          unfold fgetc at hne ⊢
          split at hne
          · exact absurd (by rw [toChar_EOF]; decide) hne
          · split at hne
            · exact absurd (by rw [toChar_EOF]; decide) hne
            · next b rest hd =>
              rw [if_neg (by assumption)]
              simp only [hd, List.length_cons]
        have hg := growLoop_safe t env f
          (stored { s with fp := (fgetc s.fp).2 } len (toChar (fgetc s.fp).1)) (len + 1)
          hl1 (by show len + 1 + 1 ≤ s.size; omega) (by omega) (by show s.size < t.wordMod; omega)
          hw1
        revert hg
        cases growLoop t env f
          (stored { s with fp := (fgetc s.fp).2 } len (toChar (fgetc s.fp).1)) (len + 1) with
        | stop o => intro hg; exact hg
        | next s2 =>
          intro hg
          obtain ⟨g1, g2, g3, g4, g5⟩ := hg
          refine ih s2 (len + 1) ⟨g1, by omega, g3⟩ g4 ?_
          rw [g5]
          show len + 1 + (fgetc s.fp).2.data.length + 3 < _
          omega

/-- Whole calls are safe when the buffer is a valid allocation of at least two
bytes: no store falls outside it, and every store index is below the capacity
in force at that moment. -/
theorem readline_safe (t : Target) (env : Env) (fuel : Nat) (buf : Buffer) (fp : FILE)
    (file : String) (ln : Int) (hcap : 2 ≤ buf.bytes.length) (hsz : buf.bytes.length < t.wordMod)
    (hov : fp.data.length + 3 < 2 ^ (t.bits - 1)) :
    Safe (km_readline_realloc_ t env fuel
      ⟨some (some buf), some fp, some buf.bytes.length, Log.empty⟩ file ln) :=
  readLoop_safe t env fuel ⟨buf, buf.bytes.length, fp, Log.empty⟩ 0
    ⟨rfl, by simpa using hcap, hsz⟩ (fun p hp => by simp [Log.empty] at hp)
    (by simpa using hov)

/-! ## Facts about powers of two used by the claims -/

theorem two_pow_half {j : Nat} (hj : 0 < j) : 2 ^ j / 2 = 2 ^ (j - 1) := by
  obtain ⟨i, rfl⟩ : ∃ i, j = i + 1 := ⟨j - 1, by omega⟩
  rw [pow_succ]; simp

/-- Two powers of two that bracket the same number are equal. -/
theorem bracket_unique {x i j : Nat} (hi1 : 2 ^ i / 2 < x) (hi2 : x < 2 ^ i)
    (hj1 : 2 ^ j / 2 < x) (hj2 : x < 2 ^ j) : 2 ^ i = 2 ^ j := by
  have hi0 : 0 < i := by
    rcases Nat.eq_zero_or_pos i with h | h
    · subst h; simp at hi1 hi2; omega
    · exact h
  have hj0 : 0 < j := by
    rcases Nat.eq_zero_or_pos j with h | h
    · subst h; simp at hj1 hj2; omega
    · exact h
  rw [two_pow_half hi0] at hi1
  rw [two_pow_half hj0] at hj1
  have a : i - 1 < j := (Nat.pow_lt_pow_iff_right (by decide)).1 (lt_trans hi1 hj2)
  have b : j - 1 < i := (Nat.pow_lt_pow_iff_right (by decide)).1 (lt_trans hj1 hi2)
  have : i = j := by omega
  rw [this]

/-- What both macros return on an input that is not a power of two: the
power of two that brackets it, which is unique and is the least power of two
above the input. -/
theorem round_between {x k : Nat} (hlo : 2 ^ k < x) (hhi : x < 2 ^ (k + 1)) :
    2 ^ (k + 1) / 2 < x ∧ x < 2 ^ (k + 1) ∧
      (∀ i, 2 ^ i / 2 < x → x < 2 ^ i → 2 ^ i = 2 ^ (k + 1)) ∧
      (∀ i, x < 2 ^ i → 2 ^ (k + 1) ≤ 2 ^ i) := by
  have h : 2 ^ (k + 1) / 2 < x := by rw [two_pow_half (by omega)]; simpa using hlo
  refine ⟨h, hhi, fun i h1 h2 => bracket_unique h1 h2 h hhi, fun i hi => ?_⟩
  have hki : k < i := (Nat.pow_lt_pow_iff_right (by decide)).1 (lt_trans hlo hi)
  exact Nat.pow_le_pow_right (by decide) hki

theorem five_not_two_pow : ¬ ∃ k, 5 = 2 ^ k := by
  rintro ⟨k, hk⟩
  have h1 : 2 ^ 2 < 2 ^ k := by omega
  have h2 : 2 ^ k < 2 ^ 3 := by omega
  have a := (Nat.pow_lt_pow_iff_right (by decide : 1 < 2)).1 h1
  have b := (Nat.pow_lt_pow_iff_right (by decide : 1 < 2)).1 h2
  omega

/-! ## The claims -/

/-- C1, as stated, fails: with capacity 4 and the stream `"ab\n"` the call
returns 3, the length of the line with its terminator, and not 2. -/
theorem C1_counterexample :
    (km_readline_realloc_ .w64 envOk 10 (world 4 [97, 98, 10]) "main.c" 7).value = some 3 ∧
    (km_readline_realloc_ .w64 envOk 10 (world 4 [97, 98, 10]) "main.c" 7).value ≠ some 2 := by
  decide

/-- C1 (amended): for a valid buffer of capacity at least 2 and a stream whose
next line is `n` bytes, none of them the terminator or `0xFF`, followed by the
terminator, with every reallocation succeeding and `n + 3` below half the
range of `size_t`, `km_readline_realloc_` returns `n + 1`: the bytes of the
line including the line terminator, excluding the null terminator. -/
theorem C1_returns_length_with_terminator (t : Target) (env : Env)
    (hok : ∀ k, env.alloc k ≠ none) (buf : Buffer) (line rest : List Byte) (log : Log)
    (fuel : Nat) (file : String) (ln : Int)
    (hcap : 2 ≤ buf.bytes.length) (hsz : buf.bytes.length < t.wordMod)
    (hline : ∀ b ∈ line, b ≠ 10 ∧ b ≠ 255)
    (hov : line.length + 3 < 2 ^ (t.bits - 1)) (hfuel : line.length + 2 ≤ fuel) :
    (km_readline_realloc_ t env fuel
        ⟨some (some buf), some ⟨line ++ 10 :: rest, false⟩, some buf.bytes.length, log⟩
        file ln).value = some ((line.length : Int) + 1) := by
  rw [readline_line t env hok buf line rest log fuel file ln hcap hsz hline hov hfuel]
  rfl

/-- C1 (amended) at capacity 4 and the stream `"abcdefgh\n"`: the call
returns 9. -/
theorem C1_witness :
    (km_readline_realloc_ .w64 envOk 12
        ⟨some (some ⟨8, [0, 0, 0, 0]⟩),
          some ⟨[97, 98, 99, 100, 101, 102, 103, 104] ++ 10 :: [], false⟩,
          some (Buffer.mk 8 [0, 0, 0, 0]).bytes.length, Log.empty⟩
        "main.c" 7).value =
      some ((([97, 98, 99, 100, 101, 102, 103, 104] : List Byte).length : Int) + 1) :=
  C1_returns_length_with_terminator .w64 envOk (fun k => by simp [envOk]) ⟨8, [0, 0, 0, 0]⟩
    [97, 98, 99, 100, 101, 102, 103, 104] [] Log.empty 12 "main.c" 7
    (by decide) (by simp [Target.wordMod, Target.bits]) (by simp)
    (by simp [Target.bits]) (by decide)

/-- C2, as stated, fails: with capacity 4 and the stream `"ab\n"` the buffer
is left holding `"ab\n\0"`: index 2 holds the line terminator, not the null
terminator. -/
theorem C2_counterexample :
    ∃ b : Buffer,
      (km_readline_realloc_ .w64 envOk 10 (world 4 [97, 98, 10]) "main.c" 7).world =
        some ⟨some (some b), some ⟨[], false⟩, some 8,
          ⟨[], [.realloc 8 8], [(0, 4), (1, 4), (2, 8), (3, 8)]⟩⟩ ∧
      b.bytes = [97, 98, 10, 0, 0, 0, 0, 0] ∧ b.bytes[2]? ≠ some 0 ∧ 10 ∈ b.bytes :=
  ⟨⟨1000, [97, 98, 10, 0, 0, 0, 0, 0]⟩, by decide, rfl, by decide, by decide⟩

/-- C2 (amended): under the hypotheses of C1 (amended), after the call the
line terminator has been consumed from the stream and stored: the buffer holds
the `n` line bytes at indices `0 .. n-1`, the line terminator at index `n` and
the null terminator at index `n + 1`. -/
theorem C2_buffer_keeps_terminator (t : Target) (env : Env)
    (hok : ∀ k, env.alloc k ≠ none) (buf : Buffer) (line rest : List Byte) (log : Log)
    (fuel : Nat) (file : String) (ln : Int)
    (hcap : 2 ≤ buf.bytes.length) (hsz : buf.bytes.length < t.wordMod)
    (hline : ∀ b ∈ line, b ≠ 10 ∧ b ≠ 255)
    (hov : line.length + 3 < 2 ^ (t.bits - 1)) (hfuel : line.length + 2 ≤ fuel) :
    ∃ (r : Int) (w : World) (b : Buffer),
      km_readline_realloc_ t env fuel
        ⟨some (some buf), some ⟨line ++ 10 :: rest, false⟩, some buf.bytes.length, log⟩
        file ln = .ret r w ∧
      w.buf = some (some b) ∧ w.fp = some ⟨rest, false⟩ ∧
      b.bytes.take (line.length + 2) = line ++ [10, 0] := by
  have hR : Ready t ⟨buf, buf.bytes.length, ⟨line ++ 10 :: rest, false⟩, log⟩ 0 :=
    ⟨rfl, by simpa using hcap, hsz⟩
  have hR' := afterBytes_ready t env line _ 0 hR (by omega)
  have htk := afterBytes_take t env line _ 0 hR (by omega)
  simp only [Nat.zero_add, List.take_zero, List.nil_append] at hR' htk
  refine ⟨_, _, _, readline_line t env hok buf line rest log fuel file ln hcap hsz hline hov hfuel,
    rfl, rfl, ?_⟩
  simp only [stored]
  obtain ⟨h1, h2, -⟩ := hR'
  rw [take_set_succ _ (line.length + 1) 0 (by rw [List.length_set]; omega),
    take_set_succ _ line.length 10 (by omega), htk]
  simp

/-- C2 (amended) at capacity 4 and the stream `"ab\n"`. -/
theorem C2_witness :
    ∃ (r : Int) (w : World) (b : Buffer),
      km_readline_realloc_ .w64 envOk 10
        ⟨some (some ⟨8, [0, 0, 0, 0]⟩), some ⟨[97, 98] ++ 10 :: [], false⟩,
          some (Buffer.mk 8 [0, 0, 0, 0]).bytes.length, Log.empty⟩ "main.c" 7 = .ret r w ∧
      w.buf = some (some b) ∧ w.fp = some ⟨[], false⟩ ∧
      b.bytes.take (([97, 98] : List Byte).length + 2) = [97, 98] ++ [10, 0] :=
  C2_buffer_keeps_terminator .w64 envOk (fun k => by simp [envOk]) ⟨8, [0, 0, 0, 0]⟩
    [97, 98] [] Log.empty 10 "main.c" 7
    (by decide) (by simp [Target.wordMod, Target.bits]) (by simp)
    (by simp [Target.bits]) (by decide)

/-- C3 fails on the code: with capacity 1 (a valid one-byte allocation) and
the stream `"\n"` the terminator is stored at index 0 and then the null
terminator is stored at index 1, outside the one-byte allocation, while
`*size` is still 1; no growth step runs before that store. -/
theorem C3_store_beyond_capacity_one :
    km_readline_realloc_ .w64 envOk 10 (world 1 [10]) "main.c" 7 =
      .ub ⟨some (some ⟨8, [10]⟩), some ⟨[], false⟩, some 1, ⟨[], [], [(0, 1)]⟩⟩ 1 := by
  decide

/-- C4, as stated, fails: the power of two 4 is not returned unchanged, it is
doubled to 8 by both macros, and rounding twice gives 16. -/
theorem C4_counterexample :
    kmroundup32 4 = 8 ∧ kmroundup32 4 ≠ 4 ∧ kmroundup64 4 = 8 ∧ kmroundup64 4 ≠ 4 ∧
    kmroundup32 (kmroundup32 4) = 16 ∧ kmroundup64 (kmroundup64 4) = 16 := by
  decide

/-- C4 (amended): for every power-of-two input `v` in range (`v < 2^31` for
`kmroundup32`, `v < 2^63` for `kmroundup64`) the rounding returns `2 * v`, the
next power of two strictly above `v`; so rounding is not idempotent on powers
of two: applied twice to `v` (`v < 2^30`, resp. `v < 2^62`) it yields
`4 * v`. -/
theorem C4_power_of_two_is_doubled (v : Nat) (hv : ∃ k, v = 2 ^ k) :
    (v < 2 ^ 31 → kmroundup32 v = 2 * v) ∧
    (v < 2 ^ 63 → kmroundup64 v = 2 * v) ∧
    (v < 2 ^ 30 → kmroundup32 (kmroundup32 v) = 4 * v) ∧
    (v < 2 ^ 62 → kmroundup64 (kmroundup64 v) = 4 * v) := by
  obtain ⟨k, rfl⟩ := hv
  have h2 : 2 ^ (k + 1) = 2 * 2 ^ k := by rw [pow_succ]; omega
  have h4 : 2 ^ (k + 1 + 1) = 4 * 2 ^ k := by rw [pow_succ, pow_succ]; omega
  refine ⟨fun h => ?_, fun h => ?_, fun h => ?_, fun h => ?_⟩
  · rw [kmroundup32_two_pow (binade_lt (le_refl _) h), h2]
  · rw [kmroundup64_two_pow (binade_lt (le_refl _) h), h2]
  · have hk : k < 30 := binade_lt (le_refl _) h
    rw [kmroundup32_two_pow (by omega), kmroundup32_two_pow (by omega), h4]
  · have hk : k < 62 := binade_lt (le_refl _) h
    rw [kmroundup64_two_pow (by omega), kmroundup64_two_pow (by omega), h4]

/-- C4 (amended) at `v = 4`. -/
theorem C4_witness :
    kmroundup32 4 = 2 * 4 ∧ kmroundup64 4 = 2 * 4 ∧
    kmroundup32 (kmroundup32 4) = 4 * 4 ∧ kmroundup64 (kmroundup64 4) = 4 * 4 :=
  ⟨(C4_power_of_two_is_doubled 4 ⟨2, rfl⟩).1 (by decide),
   (C4_power_of_two_is_doubled 4 ⟨2, rfl⟩).2.1 (by decide),
   (C4_power_of_two_is_doubled 4 ⟨2, rfl⟩).2.2.1 (by decide),
   (C4_power_of_two_is_doubled 4 ⟨2, rfl⟩).2.2.2 (by decide)⟩

/-- C5: for every `x` in range that is not a power of two, `kmroundup32`
(`0 < x < 2^31`) and `kmroundup64` (`0 < x < 2^63`) return the unique power
of two `p` with `p / 2 < x < p`, which is the smallest power of two strictly
greater than `x`. -/
theorem C5_rounds_up_to_next_power (x : Nat) (h0 : 0 < x) (hx : ¬ ∃ k, x = 2 ^ k) :
    (x < 2 ^ 31 → ∃ j, kmroundup32 x = 2 ^ j ∧ 2 ^ j / 2 < x ∧ x < 2 ^ j ∧
      (∀ i, 2 ^ i / 2 < x → x < 2 ^ i → 2 ^ i = 2 ^ j) ∧ (∀ i, x < 2 ^ i → 2 ^ j ≤ 2 ^ i)) ∧
    (x < 2 ^ 63 → ∃ j, kmroundup64 x = 2 ^ j ∧ 2 ^ j / 2 < x ∧ x < 2 ^ j ∧
      (∀ i, 2 ^ i / 2 < x → x < 2 ^ i → 2 ^ i = 2 ^ j) ∧ (∀ i, x < 2 ^ i → 2 ^ j ≤ 2 ^ i)) := by
  obtain ⟨k, hlo, hhi⟩ := exists_binade h0
  have hne : 2 ^ k < x := lt_of_le_of_ne hlo (fun e => hx ⟨k, e.symm⟩)
  constructor
  · intro h
    exact ⟨k + 1, kmroundup32_between (binade_lt hlo h) hne hhi, round_between hne hhi⟩
  · intro h
    exact ⟨k + 1, kmroundup64_between (binade_lt hlo h) hne hhi, round_between hne hhi⟩

/-- C5 at `x = 5`: both macros return 8. -/
theorem C5_witness :
    (∃ j, kmroundup32 5 = 2 ^ j ∧ 2 ^ j / 2 < 5 ∧ 5 < 2 ^ j ∧
      (∀ i, 2 ^ i / 2 < 5 → 5 < 2 ^ i → 2 ^ i = 2 ^ j) ∧ (∀ i, 5 < 2 ^ i → 2 ^ j ≤ 2 ^ i)) ∧
    (∃ j, kmroundup64 5 = 2 ^ j ∧ 2 ^ j / 2 < 5 ∧ 5 < 2 ^ j ∧
      (∀ i, 2 ^ i / 2 < 5 → 5 < 2 ^ i → 2 ^ i = 2 ^ j) ∧ (∀ i, 5 < 2 ^ i → 2 ^ j ≤ 2 ^ i)) :=
  ⟨(C5_rounds_up_to_next_power 5 (by decide) five_not_two_pow).1 (by decide),
   (C5_rounds_up_to_next_power 5 (by decide) five_not_two_pow).2 (by decide)⟩

/-- C6: in each of the four invalid-argument cases (`buf`, `*buf`, `fp` or
`size` is `NULL`) `km_readline_realloc_` returns `-2`, which is not `EOF`,
after exactly one handler call with kind 3, a `NULL` message and the caller's
file and line; the stream, the buffer and the capacity are as before, no
allocator call is made and no byte is stored. Entry 3 of `km_err_msgs` is the
null-pointer description. -/
theorem C6_null_argument (t : Target) (env : Env) (fuel : Nat) (w : World) (file : String)
    (ln : Int) (h : w.buf = none ∨ w.buf = some none ∨ w.fp = none ∨ w.size = none) :
    km_readline_realloc_ t env fuel w file ln =
      .ret (-2) ⟨w.buf, w.fp, w.size,
        ⟨w.log.errs ++ [⟨3, none, file, ln⟩], w.log.allocs, w.log.writes⟩⟩ ∧
    (-2 : Int) ≠ EOF ∧
    km_err_msgs[3]? =
      some (some "Null pointer passed to function expecting valid memory address") :=
  ⟨readline_null t env fuel w file ln h, by decide, rfl⟩

/-- C6 with `*buf == NULL`. -/
theorem C6_witness :
    km_readline_realloc_ .w64 envOk 10 ⟨some none, some ⟨[97, 10], false⟩, some 4, Log.empty⟩
        "main.c" 7 =
      .ret (-2) ⟨some none, some ⟨[97, 10], false⟩, some 4,
        ⟨Log.empty.errs ++ [⟨3, none, "main.c", 7⟩], Log.empty.allocs, Log.empty.writes⟩⟩ ∧
    (-2 : Int) ≠ EOF ∧
    km_err_msgs[3]? =
      some (some "Null pointer passed to function expecting valid memory address") :=
  C6_null_argument .w64 envOk 10 ⟨some none, some ⟨[97, 10], false⟩, some 4, Log.empty⟩
    "main.c" 7 (Or.inr (Or.inl rfl))

/-- C8, as stated, fails: the value returned after a failed reallocation
(capacity 2, stream `"ab"`, allocator failing) is `-2`, while the value
returned at end of stream (capacity 2, empty stream) is `EOF = -1`. -/
theorem C8_counterexample :
    (km_readline_realloc_ .w64 envFail 10 (world 2 [97, 98]) "main.c" 7).value = some (-2) ∧
    (km_readline_realloc_ .w64 envFail 10 (world 2 []) "main.c" 7).value = some EOF ∧
    (km_readline_realloc_ .w64 envFail 10 (world 2 [97, 98]) "main.c" 7).value ≠
      (km_readline_realloc_ .w64 envFail 10 (world 2 []) "main.c" 7).value := by
  decide

/-- C8 (amended): the value returned when a reallocation fails during growth
is `-2`, the same value as the invalid-argument sentinel, and it differs from
the value returned at end of stream, `EOF`: by the return value a caller can
tell an allocation failure from end of stream, but not from an invalid
argument. -/
theorem C8_failure_value_is_the_null_value (t : Target) (env : Env) (fuel : Nat)
    (w : World) (file : String) (ln : Int) (w' : World)
    (hrun : (km_readline_realloc_ t env fuel w file ln).world = some w')
    (hfail : Failed env w.log w'.log)
    (w0 : World) (file0 : String) (ln0 : Int)
    (hnull : w0.buf = none ∨ w0.buf = some none ∨ w0.fp = none ∨ w0.size = none)
    (b1 : Buffer) (fp1 : FILE) (n1 : Nat) (log1 : Log) (file1 : String) (ln1 : Int)
    (r1 : Int) (w1 : World) (fp1' : FILE)
    (hret : km_readline_realloc_ t env fuel ⟨some (some b1), some fp1, some n1, log1⟩
      file1 ln1 = .ret r1 w1)
    (hclean : ¬ Failed env log1 w1.log) (hfp : w1.fp = some fp1') (heof : fp1'.eof = true) :
    (km_readline_realloc_ t env fuel w file ln).value = some (-2) ∧
    (km_readline_realloc_ t env fuel w file ln).value =
      (km_readline_realloc_ t env fuel w0 file0 ln0).value ∧
    (km_readline_realloc_ t env fuel ⟨some (some b1), some fp1, some n1, log1⟩
      file1 ln1).value = some EOF ∧
    (km_readline_realloc_ t env fuel w file ln).value ≠
      (km_readline_realloc_ t env fuel ⟨some (some b1), some fp1, some n1, log1⟩
        file1 ln1).value := by
  have hA := (readline_failed t env fuel w file ln w' hrun hfail).1
  have hC := readline_eof_value t env fuel b1 fp1 n1 log1 file1 ln1 r1 w1 fp1' hret hclean
    hfp heof
  rw [hA, readline_null t env fuel w0 file0 ln0 hnull, hret, hC]
  exact ⟨rfl, rfl, rfl, by simp [Outcome.value, EOF]⟩

/-- C8 (amended) with capacity 2 and a failing allocator: the stream `"ab"`
(failed growth), a `NULL` buffer pointer, and the empty stream. -/
theorem C8_witness :
    (km_readline_realloc_ .w64 envFail 10 (world 2 [97, 98]) "main.c" 7).value = some (-2) ∧
    (km_readline_realloc_ .w64 envFail 10 (world 2 [97, 98]) "main.c" 7).value =
      (km_readline_realloc_ .w64 envFail 10 ⟨none, none, none, Log.empty⟩ "main.c" 8).value ∧
    (km_readline_realloc_ .w64 envFail 10
      ⟨some (some ⟨8, [0, 0]⟩), some ⟨[], false⟩, some 2, Log.empty⟩ "main.c" 9).value =
      some EOF ∧
    (km_readline_realloc_ .w64 envFail 10 (world 2 [97, 98]) "main.c" 7).value ≠
      (km_readline_realloc_ .w64 envFail 10
        ⟨some (some ⟨8, [0, 0]⟩), some ⟨[], false⟩, some 2, Log.empty⟩ "main.c" 9).value :=
  C8_failure_value_is_the_null_value .w64 envFail 10 (world 2 [97, 98]) "main.c" 7
    ⟨some (some ⟨8, [97, 0]⟩), some ⟨[98], false⟩, some 4,
      ⟨[⟨1, none, "kdm.h", 256⟩], [.realloc 8 4], [(0, 2)]⟩⟩
    (by decide) ⟨0, by decide, by decide, rfl⟩
    ⟨none, none, none, Log.empty⟩ "main.c" 8 (Or.inl rfl)
    ⟨8, [0, 0]⟩ ⟨[], false⟩ 2 Log.empty "main.c" 9 EOF
    ⟨some (some ⟨8, [0, 0]⟩), some ⟨[], true⟩, some 2, ⟨[], [], [(0, 2), (0, 2)]⟩⟩
    ⟨[], true⟩ (by decide) (by rintro ⟨k, h1, h2, -⟩; simp [Log.empty] at h2)
    rfl rfl

/-- C9 fails on the code: with capacity 2 and a stream that ends after the two
bytes `0xFF 'a'` (neither is the line terminator) the call does not return
`EOF` and does not leave the two bytes in the buffer: the byte `0xFF`, once
stored in the `char` cell, compares equal to `EOF`, so the loop stops at it;
the call returns 0, the buffer holds only the null terminator and `'a'` is
still unread. -/
theorem C9_ff_byte_ends_the_read :
    km_readline_realloc_ .w64 envOk 10 (world 2 [255, 97]) "main.c" 7 =
      .ret 0 ⟨some (some ⟨8, [0, 0]⟩), some ⟨[97], false⟩, some 2,
        ⟨[], [], [(0, 2), (0, 2)]⟩⟩ := by
  decide

/-- C10: for a valid buffer of at least one byte and a stream with no byte
left, `km_readline_realloc_` returns `EOF`, leaves the null terminator in the
first byte of the buffer, and leaves the buffer address, the capacity, the
handler log and the allocator log as they were. -/
theorem C10_exhausted_stream (t : Target) (env : Env) (fuel : Nat) (buf : Buffer) (cap : Nat)
    (e : Bool) (log : Log) (file : String) (ln : Int)
    (hbuf : 1 ≤ buf.bytes.length) (hfuel : 1 ≤ fuel) :
    ∃ b : Buffer,
      km_readline_realloc_ t env fuel ⟨some (some buf), some ⟨[], e⟩, some cap, log⟩ file ln =
        .ret EOF ⟨some (some b), some ⟨[], true⟩, some cap,
          ⟨log.errs, log.allocs, log.writes ++ [(0, cap)] ++ [(0, cap)]⟩⟩ ∧
      b.bytes[0]? = some 0 ∧ b.addr = buf.addr ∧ b.bytes.length = buf.bytes.length := by
  obtain ⟨f, rfl⟩ : ∃ f, fuel = f + 1 := ⟨fuel - 1, by omega⟩
  refine ⟨_, readLoop_eof t env ⟨buf, cap, ⟨[], e⟩, log⟩ 0 f rfl (by simpa using hbuf), ?_, rfl, ?_⟩
  · simp only [stored]
    rw [List.getElem?_set_self (by simpa using hbuf)]
  · simp [stored]

/-- C10 at capacity 1. -/
theorem C10_witness :
    ∃ b : Buffer,
      km_readline_realloc_ .w64 envOk 1 ⟨some (some ⟨8, [7]⟩), some ⟨[], false⟩, some 1,
          Log.empty⟩ "main.c" 7 =
        .ret EOF ⟨some (some b), some ⟨[], true⟩, some 1,
          ⟨Log.empty.errs, Log.empty.allocs, Log.empty.writes ++ [(0, 1)] ++ [(0, 1)]⟩⟩ ∧
      b.bytes[0]? = some 0 ∧ b.addr = (Buffer.mk 8 [7]).addr ∧
      b.bytes.length = (Buffer.mk 8 [7]).bytes.length :=
  C10_exhausted_stream .w64 envOk 1 ⟨8, [7]⟩ 1 false Log.empty "main.c" 7 (by decide) (by decide)

/-! ## Rounding at the edges of the range -/

theorem kmroundup64_zero : kmroundup64 0 = 1 := by decide

theorem kmroundup32_zero : kmroundup32 0 = 1 := by decide

/-- In the top half of the 64-bit range the final increment wraps. -/
theorem kmroundup64_high {v : Nat} (h1 : 2 ^ 63 ≤ v) (h2 : v < 2 ^ 64) : kmroundup64 v = 0 := by
  have e : (v + 2 ^ 64 - 1) % 2 ^ 64 = v - 1 := by omega
  unfold kmroundup64
  rw [e]
  by_cases hc : v &&& (v - 1) = 0
  · rw [if_pos hc, @smear64_eq v 63 (by decide) h1 h2]
    decide
  · have hv : v ≠ 2 ^ 63 := fun h => hc ((and_pred_eq_zero_iff h1 h2).2 h)
    rw [if_neg hc, @smear64_eq (v - 1) 63 (by decide) (by omega) (by omega)]
    decide

/-- In the top half of the 32-bit range the final increment wraps. -/
theorem kmroundup32_high {v : Nat} (h1 : 2 ^ 31 ≤ v) (h2 : v < 2 ^ 32) : kmroundup32 v = 0 := by
  have e : (v + 2 ^ 32 - 1) % 2 ^ 32 = v - 1 := by omega
  unfold kmroundup32
  rw [e]
  by_cases hc : v &&& (v - 1) = 0
  · rw [if_pos hc, @smear32_eq v 31 (by decide) h1 h2]
    decide
  · have hv : v ≠ 2 ^ 31 := fun h => hc ((and_pred_eq_zero_iff h1 h2).2 h)
    rw [if_neg hc, @smear32_eq (v - 1) 31 (by decide) (by omega) (by omega)]
    decide

/-- Below the top half, `kmroundup64` returns a power of two. -/
theorem kmroundup64_low {v : Nat} (h : v < 2 ^ 63) : ∃ j, kmroundup64 v = 2 ^ j := by
  rcases Nat.eq_zero_or_pos v with h0 | h0
  · subst h0; exact ⟨0, kmroundup64_zero⟩
  · obtain ⟨_, _, hj⟩ := @kmroundupz_spec .w64 v h0 h
    exact hj

/-- Below the top half, `kmroundup32` returns a power of two. -/
theorem kmroundup32_low {v : Nat} (h : v < 2 ^ 31) : ∃ j, kmroundup32 v = 2 ^ j := by
  rcases Nat.eq_zero_or_pos v with h0 | h0
  · subst h0; exact ⟨0, kmroundup32_zero⟩
  · obtain ⟨_, _, hj⟩ := @kmroundupz_spec .w32 v h0 h
    exact hj

/-- In range, `kmroundupz` returns the least power of two strictly above its
argument. -/
theorem kmroundupz_least (t : Target) {v : Nat} (h0 : 0 < v) (h1 : v < 2 ^ (t.bits - 1)) :
    ∃ j, kmroundupz t v = 2 ^ j ∧ v < 2 ^ j ∧ ∀ i, v < 2 ^ i → 2 ^ j ≤ 2 ^ i := by
  obtain ⟨k, hlo, hhi⟩ := exists_binade h0
  have hk : k < t.bits - 1 := binade_lt hlo h1
  have hr : kmroundupz t v = 2 ^ (k + 1) := by
    by_cases e : v = 2 ^ k
    · subst e
      cases t
      · exact kmroundup64_two_pow hk
      · exact kmroundup32_two_pow hk
    · cases t
      · exact kmroundup64_between hk (by omega) hhi
      · exact kmroundup32_between hk (by omega) hhi
  refine ⟨k + 1, hr, hhi, fun i hi => ?_⟩
  have hki : k < i := (Nat.pow_lt_pow_iff_right (by decide)).1 (lt_of_le_of_lt hlo hi)
  exact Nat.pow_le_pow_right (by decide) hki

/-! ## One growth step -/

/-- One iteration of the inner loop whose test holds: the growth step. -/
theorem growLoop_step (t : Target) (env : Env) (s : State) (len fuel : Nat)
    (hc : mustGrow t s len) :
    growLoop t env (fuel + 1) s len =
      match env.alloc s.log.allocs.length with
      | none => .stop (.ret (-2) (growFail t env s).toWorld)
      | some a => growLoop t env fuel (growOk t env s a) len := by
  have hc' : (s.size + t.wordMod - 1) % t.wordMod ≤ (len + 1) % t.wordMod := hc
  rw [growLoop, if_pos hc']
  cases ha : env.alloc s.log.allocs.length with
  | none =>
    simp only [km_realloc__none env s.log _ _ _ _ ha]
    rfl
  | some a =>
    simp only [km_realloc__some env s.log _ _ _ _ a ha]
    rfl

/-- In range nothing wraps in a growth step. -/
theorem newSize_eq (t : Target) (s : State) (h : s.size + 1 < 2 ^ (t.bits - 1)) :
    newSize t s = kmroundupz t (s.size + 1) ∧ request t s = kmroundupz t (s.size + 1) := by
  have hW := wordMod_eq t
  obtain ⟨r1, r2, -⟩ := @kmroundupz_spec t (s.size + 1) (by omega) h
  have e3 : (s.size + 1) % t.wordMod = s.size + 1 := Nat.mod_eq_of_lt (by omega)
  have e : newSize t s = kmroundupz t (s.size + 1) := by rw [newSize, e3]
  refine ⟨e, ?_⟩
  rw [request, e, Nat.one_mul]
  exact Nat.mod_eq_of_lt (by omega)

/-! ## The claims, continued -/

/-- C14: each of `km_calloc_`, `km_malloc_` and `km_realloc_` returns exactly
what the underlying allocator call returned, and calls the handler if and only
if that is `NULL`: then exactly once, with the kind 1, a `NULL` message and the
file and line it was passed; on success the handler log is as before. Entry 1
of `km_err_msgs` is "Could not allocate memory". -/
theorem C14_allocation_wrappers (env : Env) (log : Log) (n size : Nat) (data : Buffer)
    (file : String) (line : Int) :
    (km_calloc_ env log n size file line).1 = calloc env log.allocs.length n size ∧
    (km_calloc_ env log n size file line).2.errs =
      (if (calloc env log.allocs.length n size).isNone then log.errs ++ [⟨1, none, file, line⟩]
       else log.errs) ∧
    (km_malloc_ env log size file line).1 = malloc env log.allocs.length size ∧
    (km_malloc_ env log size file line).2.errs =
      (if (malloc env log.allocs.length size).isNone then log.errs ++ [⟨1, none, file, line⟩]
       else log.errs) ∧
    (km_realloc_ env log data size file line).1 = realloc env log.allocs.length data size ∧
    (km_realloc_ env log data size file line).2.errs =
      (if (realloc env log.allocs.length data size).isNone
       then log.errs ++ [⟨1, none, file, line⟩] else log.errs) ∧
    km_err_msgs[1]? = some (some "Could not allocate memory") := by
  refine ⟨?_, ?_, ?_, ?_, ?_, ?_, rfl⟩
  all_goals
    cases h : env.alloc log.allocs.length <;>
      simp [km_calloc_, km_malloc_, km_realloc_, calloc, malloc, realloc, h]

/-- C15, as stated, fails: a growth step from capacity 3 (capacity 3, stream
`"a\n"`) sets the capacity to 8, while the smallest power of two that is at
least `3 + 1` is 4. -/
theorem C15_counterexample :
    km_readline_realloc_ .w64 envOk 10 (world 3 [97, 10]) "main.c" 7 =
      .ret 2 ⟨some (some ⟨1000, [97, 10, 0, 0, 0, 0, 0, 0]⟩), some ⟨[], false⟩, some 8,
        ⟨[], [.realloc 8 8], [(0, 3), (1, 8), (2, 8)]⟩⟩ ∧
    kmroundupz .w64 (3 + 1) = 8 ∧ 3 + 1 ≤ 2 ^ 2 ∧ 2 ^ 2 < 8 := by
  decide

/-- C15 (amended): every growth step that starts from a capacity `c` with
`1 <= c` and `c + 1` below half the range of `size_t` stores
`kmroundupz (c + 1)` in `*size` and asks `realloc` for that many bytes; this
is the smallest power of two strictly greater than `c + 1`. -/
theorem C15_growth_step_capacity (t : Target) (env : Env) (s : State) (len fuel : Nat)
    (hc : mustGrow t s len) (h1 : 1 ≤ s.size) (h2 : s.size + 1 < 2 ^ (t.bits - 1)) :
    growLoop t env (fuel + 1) s len =
      (match env.alloc s.log.allocs.length with
       | none => .stop (.ret (-2) (growFail t env s).toWorld)
       | some a => growLoop t env fuel (growOk t env s a) len) ∧
    (growFail t env s).size = kmroundupz t (s.size + 1) ∧
    (∀ a, (growOk t env s a).size = kmroundupz t (s.size + 1)) ∧
    (growFail t env s).log.allocs =
      s.log.allocs ++ [.realloc s.buf.addr (kmroundupz t (s.size + 1))] ∧
    (∀ a, (growOk t env s a).log.allocs =
      s.log.allocs ++ [.realloc s.buf.addr (kmroundupz t (s.size + 1))]) ∧
    ∃ j, kmroundupz t (s.size + 1) = 2 ^ j ∧ s.size + 1 < 2 ^ j ∧
      ∀ i, s.size + 1 < 2 ^ i → 2 ^ j ≤ 2 ^ i := by
  obtain ⟨e1, e2⟩ := newSize_eq t s h2
  refine ⟨growLoop_step t env s len fuel hc, e1, fun _ => e1, ?_, fun _ => ?_,
    kmroundupz_least t (by omega) h2⟩
  · simp only [growFail, e2]
  · simp only [growOk, e2]

/-- C15 (amended) at capacity 7 with `len = 5`: the step stores 16. -/
theorem C15_witness :
    growLoop .w64 envOk (1 + 1) ⟨⟨8, [0, 0, 0, 0, 0, 0, 0]⟩, 7, ⟨[], false⟩, Log.empty⟩ 5 =
      (match envOk.alloc (State.mk ⟨8, [0, 0, 0, 0, 0, 0, 0]⟩ 7 ⟨[], false⟩
          Log.empty).log.allocs.length with
       | none => .stop (.ret (-2)
          (growFail .w64 envOk ⟨⟨8, [0, 0, 0, 0, 0, 0, 0]⟩, 7, ⟨[], false⟩, Log.empty⟩).toWorld)
       | some a => growLoop .w64 envOk 1
          (growOk .w64 envOk ⟨⟨8, [0, 0, 0, 0, 0, 0, 0]⟩, 7, ⟨[], false⟩, Log.empty⟩ a) 5) ∧
    (growOk .w64 envOk ⟨⟨8, [0, 0, 0, 0, 0, 0, 0]⟩, 7, ⟨[], false⟩, Log.empty⟩ 1000).size =
      kmroundupz .w64 (7 + 1) ∧
    ∃ j, kmroundupz .w64 (7 + 1) = 2 ^ j ∧ 7 + 1 < 2 ^ j ∧
      ∀ i, 7 + 1 < 2 ^ i → 2 ^ j ≤ 2 ^ i :=
  ⟨(C15_growth_step_capacity .w64 envOk ⟨⟨8, [0, 0, 0, 0, 0, 0, 0]⟩, 7, ⟨[], false⟩, Log.empty⟩
      5 1 (by simp [mustGrow, Target.wordMod, Target.bits]) (by decide)
      (by simp [Target.bits])).1,
   (C15_growth_step_capacity .w64 envOk ⟨⟨8, [0, 0, 0, 0, 0, 0, 0]⟩, 7, ⟨[], false⟩, Log.empty⟩
      5 1 (by simp [mustGrow, Target.wordMod, Target.bits]) (by decide)
      (by simp [Target.bits])).2.2.1 1000,
   (C15_growth_step_capacity .w64 envOk ⟨⟨8, [0, 0, 0, 0, 0, 0, 0]⟩, 7, ⟨[], false⟩, Log.empty⟩
      5 1 (by simp [mustGrow, Target.wordMod, Target.bits]) (by decide)
      (by simp [Target.bits])).2.2.2.2.2⟩

/-- C16: for every power-of-two input `v` in range (`v < 2^31` for
`kmroundup32`, `v < 2^63` for `kmroundup64`) the test `v & (v - 1) == 0`
holds, so the branch without decrement is taken, and the result is `2 * v`,
the smallest power of two strictly greater than `v`; the input 0 passes the
same test, takes the same branch and gives 1. -/
theorem C16_power_of_two_and_zero (v : Nat) (hv : ∃ k, v = 2 ^ k) :
    (v < 2 ^ 31 →
      v &&& ((v + 2 ^ 32 - 1) % 2 ^ 32) = 0 ∧ kmroundup32 v = (smear32 v + 1) % 2 ^ 32 ∧
      kmroundup32 v = 2 * v ∧ (∃ j, 2 * v = 2 ^ j) ∧ ∀ i, v < 2 ^ i → 2 * v ≤ 2 ^ i) ∧
    (v < 2 ^ 63 →
      v &&& ((v + 2 ^ 64 - 1) % 2 ^ 64) = 0 ∧ kmroundup64 v = (smear64 v + 1) % 2 ^ 64 ∧
      kmroundup64 v = 2 * v ∧ (∃ j, 2 * v = 2 ^ j) ∧ ∀ i, v < 2 ^ i → 2 * v ≤ 2 ^ i) ∧
    (0 &&& ((0 + 2 ^ 32 - 1) % 2 ^ 32) = 0 ∧ kmroundup32 0 = (smear32 0 + 1) % 2 ^ 32 ∧
      kmroundup32 0 = 1) ∧
    (0 &&& ((0 + 2 ^ 64 - 1) % 2 ^ 64) = 0 ∧ kmroundup64 0 = (smear64 0 + 1) % 2 ^ 64 ∧
      kmroundup64 0 = 1) := by
  obtain ⟨k, rfl⟩ := hv
  have h2 : 2 ^ (k + 1) = 2 * 2 ^ k := by rw [pow_succ]; omega
  have hpos : 0 < 2 ^ k := Nat.two_pow_pos k
  have hlt : 2 ^ k < 2 ^ (k + 1) := Nat.pow_lt_pow_right (by decide) (by omega)
  have hand : 2 ^ k &&& (2 ^ k - 1) = 0 := (and_pred_eq_zero_iff (le_refl _) hlt).2 rfl
  have hleast : ∀ i, 2 ^ k < 2 ^ i → 2 * 2 ^ k ≤ 2 ^ i := fun i hi => by
    have hki : k < i := (Nat.pow_lt_pow_iff_right (by decide)).1 hi
    rw [← h2]
    exact Nat.pow_le_pow_right (by decide) hki
  refine ⟨fun h => ?_, fun h => ?_, by decide, by decide⟩
  · have e : (2 ^ k + 2 ^ 32 - 1) % 2 ^ 32 = 2 ^ k - 1 := by omega
    have hc : 2 ^ k &&& ((2 ^ k + 2 ^ 32 - 1) % 2 ^ 32) = 0 := by rw [e]; exact hand
    refine ⟨hc, ?_, ?_, ⟨k + 1, h2.symm⟩, hleast⟩
    · rw [kmroundup32, if_pos hc]
    · rw [kmroundup32_two_pow (binade_lt (le_refl _) h), h2]
  · have e : (2 ^ k + 2 ^ 64 - 1) % 2 ^ 64 = 2 ^ k - 1 := by omega
    have hc : 2 ^ k &&& ((2 ^ k + 2 ^ 64 - 1) % 2 ^ 64) = 0 := by rw [e]; exact hand
    refine ⟨hc, ?_, ?_, ⟨k + 1, h2.symm⟩, hleast⟩
    · rw [kmroundup64, if_pos hc]
    · rw [kmroundup64_two_pow (binade_lt (le_refl _) h), h2]

/-- C16 at `v = 8`: both macros return 16. -/
theorem C16_witness :
    (kmroundup32 8 = 2 * 8 ∧ ∀ i, 8 < 2 ^ i → 2 * 8 ≤ 2 ^ i) ∧
    (kmroundup64 8 = 2 * 8 ∧ ∀ i, 8 < 2 ^ i → 2 * 8 ≤ 2 ^ i) ∧
    kmroundup32 0 = 1 ∧ kmroundup64 0 = 1 :=
  ⟨⟨((C16_power_of_two_and_zero 8 ⟨3, rfl⟩).1 (by decide)).2.2.1,
    ((C16_power_of_two_and_zero 8 ⟨3, rfl⟩).1 (by decide)).2.2.2.2⟩,
   ⟨((C16_power_of_two_and_zero 8 ⟨3, rfl⟩).2.1 (by decide)).2.2.1,
    ((C16_power_of_two_and_zero 8 ⟨3, rfl⟩).2.1 (by decide)).2.2.2.2⟩,
   (C16_power_of_two_and_zero 8 ⟨3, rfl⟩).2.2.1.2.2,
   (C16_power_of_two_and_zero 8 ⟨3, rfl⟩).2.2.2.2.2⟩

/-- C17 fails on the code: with capacity 4 and the stream `0xFF 'a' '\n'` the
read stops at the byte `0xFF`, which is neither the line terminator nor the
end of the stream: the byte is consumed but neither kept nor counted, the call
returns 0 with an empty string in the buffer, and `"a\n"` is left unread with
the end-of-file indicator clear. -/
theorem C17_ff_byte_taken_for_EOF :
    km_readline_realloc_ .w64 envOk 10 (world 4 [255, 97, 10]) "main.c" 7 =
      .ret 0 ⟨some (some ⟨8, [0, 0, 0, 0]⟩), some ⟨[97, 10], false⟩, some 4,
        ⟨[], [], [(0, 4), (0, 4)]⟩⟩ ∧
    charVal (toChar 255) = EOF := by
  decide

/-- C20: `kmroundup64` is 0 on every 64-bit input from `2^63` on and
`kmroundup32` is 0 on every 32-bit input from `2^31` on, so on a `w`-bit word
the result is a power of two exactly when the input is below `2^(w-1)`; and on
the 64-bit target a growth step of `km_readline_realloc_` from a capacity `c`
with `2^63 - 1 <= c < 2^64 - 1` stores 0 in `*size` and asks `realloc` for 0
bytes, whether or not `realloc` succeeds. -/
theorem C20_rounding_wraps_to_zero :
    (∀ v, 2 ^ 63 ≤ v → v < 2 ^ 64 → kmroundup64 v = 0) ∧
    (∀ v, 2 ^ 31 ≤ v → v < 2 ^ 32 → kmroundup32 v = 0) ∧
    (∀ v, v < 2 ^ 64 → ((∃ j, kmroundup64 v = 2 ^ j) ↔ v < 2 ^ 63)) ∧
    (∀ v, v < 2 ^ 32 → ((∃ j, kmroundup32 v = 2 ^ j) ↔ v < 2 ^ 31)) ∧
    (∀ (env : Env) (s : State) (len fuel : Nat), mustGrow .w64 s len →
      2 ^ 63 - 1 ≤ s.size → s.size < 2 ^ 64 - 1 →
      growLoop .w64 env (fuel + 1) s len =
        (match env.alloc s.log.allocs.length with
         | none => .stop (.ret (-2) (growFail .w64 env s).toWorld)
         | some a => growLoop .w64 env fuel (growOk .w64 env s a) len) ∧
      (growFail .w64 env s).size = 0 ∧ (∀ a, (growOk .w64 env s a).size = 0) ∧
      request .w64 s = 0) := by
  refine ⟨fun v h1 h2 => kmroundup64_high h1 h2, fun v h1 h2 => kmroundup32_high h1 h2,
    fun v hv => ⟨?_, kmroundup64_low⟩, fun v hv => ⟨?_, kmroundup32_low⟩, ?_⟩
  · rintro ⟨j, hj⟩
    by_contra h
    rw [kmroundup64_high (by omega) hv] at hj
    have := Nat.two_pow_pos j
    omega
  · rintro ⟨j, hj⟩
    by_contra h
    rw [kmroundup32_high (by omega) hv] at hj
    have := Nat.two_pow_pos j
    omega
  · intro env s len fuel hc h1 h2
    have e : newSize .w64 s = 0 := by
      have e3 : (s.size + 1) % Target.wordMod .w64 = s.size + 1 :=
        Nat.mod_eq_of_lt (by simp only [Target.wordMod, Target.bits]; omega)
      rw [newSize, e3]
      exact kmroundup64_high (by omega) (by omega)
    have er : request .w64 s = 0 := by rw [request, e]; rfl
    exact ⟨growLoop_step .w64 env s len fuel hc, e, fun _ => e, er⟩

/-- C20 at `v = 2^63`, at `v = 2^31`, and at a growth step from capacity
`2^63 - 1`. -/
theorem C20_witness :
    kmroundup64 (2 ^ 63) = 0 ∧ kmroundup32 (2 ^ 31) = 0 ∧
    (growOk .w64 envOk ⟨⟨8, []⟩, 2 ^ 63 - 1, ⟨[], false⟩, Log.empty⟩ 1000).size = 0 ∧
    (growFail .w64 envOk ⟨⟨8, []⟩, 2 ^ 63 - 1, ⟨[], false⟩, Log.empty⟩).size = 0 :=
  ⟨C20_rounding_wraps_to_zero.1 (2 ^ 63) (by decide) (by decide),
   C20_rounding_wraps_to_zero.2.1 (2 ^ 31) (by decide) (by decide),
   (C20_rounding_wraps_to_zero.2.2.2.2 envOk ⟨⟨8, []⟩, 2 ^ 63 - 1, ⟨[], false⟩, Log.empty⟩
      (2 ^ 63 - 2) 0 (by simp [mustGrow, Target.wordMod, Target.bits]) (by decide)
      (by decide)).2.2.1 1000,
   (C20_rounding_wraps_to_zero.2.2.2.2 envOk ⟨⟨8, []⟩, 2 ^ 63 - 1, ⟨[], false⟩, Log.empty⟩
      (2 ^ 63 - 2) 0 (by simp [mustGrow, Target.wordMod, Target.bits]) (by decide)
      (by decide)).2.1⟩

/-! ## Lines that fit: no growth -/

/-- One iteration of the outer loop on a line terminator, with no assumption
on the range of `len`. -/
theorem readLoop_nl_any (t : Target) (env : Env) (s : State) (len fuel : Nat) (rest : List Byte)
    (hfp : s.fp = ⟨10 :: rest, false⟩) (hlen : len + 1 < s.buf.bytes.length)
    (hW : len + 1 < t.wordMod) :
    readLoop t env (fuel + 1) s len =
      .ret (toSsize t (len + 1))
        (stored (stored { s with fp := ⟨rest, false⟩ } len 10) (len + 1) 0).toWorld := by
  have e2 : (len + 1) % t.wordMod = len + 1 := Nat.mod_eq_of_lt hW
  have hs : store { s with fp := ⟨rest, false⟩ } len 10 =
      some (stored { s with fp := ⟨rest, false⟩ } len 10) :=
    store_eq 10 (by show len < s.buf.bytes.length; omega)
  have hl : len + 1 < (stored { s with fp := ⟨rest, false⟩ } len 10).buf.bytes.length := by
    simp only [stored, List.length_set]; omega
  rw [readLoop]
  simp only [fgetc, hfp, toChar_val, Bool.false_eq_true, if_false, hs, e2]
  rw [if_neg (by decide), if_pos (by decide), finish_eq t _ _ hl]
  simp only [stored, Bool.false_eq_true, if_false]

/-- One iteration of the outer loop on the byte `0xFF`: the loop ends as if
the stream had ended, but the end-of-file indicator is clear. -/
theorem readLoop_ff (t : Target) (env : Env) (s : State) (len fuel : Nat) (rest : List Byte)
    (hfp : s.fp = ⟨255 :: rest, false⟩) (hlen : len < s.buf.bytes.length) :
    readLoop t env (fuel + 1) s len =
      .ret (toSsize t len)
        (stored (stored { s with fp := ⟨rest, false⟩ } len 255) len 0).toWorld := by
  have hs : store { s with fp := ⟨rest, false⟩ } len 255 =
      some (stored { s with fp := ⟨rest, false⟩ } len 255) :=
    store_eq 255 hlen
  have hl : len < (stored { s with fp := ⟨rest, false⟩ } len 255).buf.bytes.length := by
    simp only [stored, List.length_set]; exact hlen
  rw [readLoop]
  simp only [fgetc, hfp, toChar_val, Bool.false_eq_true, if_false, hs]
  rw [if_pos (by decide), finish_eq t _ _ hl]
  simp only [stored, Bool.false_eq_true, if_false]

/-- One iteration of the outer loop on an ordinary byte when three cells
beyond `len` are free: nothing grows. -/
theorem readLoop_byte_fits (t : Target) (env : Env) (s : State) (len fuel : Nat) (b : Byte)
    (rest : List Byte) (hfp : s.fp = ⟨b :: rest, false⟩) (hb1 : b ≠ 10) (hb2 : b ≠ 255)
    (hlen : s.buf.bytes.length = s.size) (hfit : len + 3 < s.size) (hsz : s.size < t.wordMod) :
    readLoop t env (fuel + 2) s len =
      readLoop t env (fuel + 1) (stored { s with fp := ⟨rest, false⟩ } len b) (len + 1) := by
  have e2 : (len + 1) % t.wordMod = len + 1 := Nat.mod_eq_of_lt (by omega)
  have hs : store { s with fp := ⟨rest, false⟩ } len b =
      some (stored { s with fp := ⟨rest, false⟩ } len b) :=
    store_eq b (by show len < s.buf.bytes.length; omega)
  have hc1 : ¬ charVal b = EOF := fun h => hb2 ((charVal_eq_EOF_iff b).1 h)
  have hc2 : ¬ charVal b = 10 := fun h => hb1 ((charVal_eq_nl_iff b).1 h)
  rw [readLoop]
  simp only [fgetc, hfp, toChar_val, Bool.false_eq_true, if_false, hs, e2]
  rw [if_neg hc1, if_neg hc2,
    growLoop_skip t env _ (len + 1) fuel (by simpa [stored] using hfit)
      (by simpa [stored] using hsz)]

/-- The outer loop on a line that fits with a spare cell: the call returns
with the same block, the same capacity, no allocator call and no handler
call. -/
theorem readLoop_fits (t : Target) (env : Env) (rest : List Byte) :
    ∀ (pre : List Byte) (fuel : Nat) (s : State) (len : Nat),
      s.fp = ⟨pre ++ 10 :: rest, false⟩ → (∀ b ∈ pre, b ≠ 10) →
      s.buf.bytes.length = s.size → len + pre.length + 2 < s.size → s.size < t.wordMod →
      pre.length + 1 ≤ fuel →
      ∃ (r : Int) (fp : FILE) (bs : List Byte) (ws : List (Nat × Nat)),
        readLoop t env fuel s len =
          .ret r ⟨some (some ⟨s.buf.addr, bs⟩), some fp, some s.size,
            ⟨s.log.errs, s.log.allocs, ws⟩⟩ ∧
        bs.length = s.buf.bytes.length := by
  intro pre
  induction pre with
  | nil =>
    intro fuel s len hfp _ hlen hfit hsz hfuel
    obtain ⟨f, rfl⟩ : ∃ f, fuel = f + 1 := ⟨fuel - 1, by omega⟩
    simp only [List.length_nil, Nat.add_zero] at hfit
    refine ⟨_, _, _, _, readLoop_nl_any t env s len f rest (by simpa using hfp) (by omega)
      (by omega), ?_⟩
    simp [stored]
  | cons b bs ih =>
    intro fuel s len hfp hpre hlen hfit hsz hfuel
    simp only [List.length_cons] at hfit hfuel
    by_cases hff : b = 255
    · obtain ⟨f, rfl⟩ : ∃ f, fuel = f + 1 := ⟨fuel - 1, by omega⟩
      subst hff
      refine ⟨_, _, _, _, readLoop_ff t env s len f (bs ++ 10 :: rest) (by simpa using hfp)
        (by omega), ?_⟩
      simp [stored]
    · obtain ⟨f, rfl⟩ : ∃ f, fuel = f + 2 := ⟨fuel - 2, by omega⟩
      rw [readLoop_byte_fits t env s len f b (bs ++ 10 :: rest) (by simpa using hfp)
        (hpre b (List.mem_cons_self b bs)) hff hlen (by omega) hsz]
      obtain ⟨r, fp, bs', ws, h1, h2⟩ := ih (f + 1)
        (stored { s with fp := ⟨bs ++ 10 :: rest, false⟩ } len b) (len + 1) rfl
        (fun x hx => hpre x (List.mem_cons_of_mem b hx))
        (by simpa [stored] using hlen) (by simp only [stored]; omega)
        (by simpa [stored] using hsz) (by omega)
      refine ⟨r, fp, bs', ws, h1, ?_⟩
      rw [h2]; simp [stored]

/-- C11, as stated, fails: with capacity 4 and the stream `"ab\n"` (line length
2, less than 4) a reallocation to 8 bytes is requested, and the call returns
with another block and capacity 8. -/
theorem C11_counterexample :
    ∃ w : World,
      (km_readline_realloc_ .w64 envOk 10 (world 4 [97, 98, 10]) "main.c" 7).world = some w ∧
      w.log.allocs = [.realloc 8 8] ∧ w.size = some 8 ∧ w.size ≠ some 4 ∧
      ([97, 98] : List Byte).length < 4 :=
  ⟨⟨some (some ⟨1000, [97, 98, 10, 0, 0, 0, 0, 0]⟩), some ⟨[], false⟩, some 8,
    ⟨[], [.realloc 8 8], [(0, 4), (1, 4), (2, 8), (3, 8)]⟩⟩,
   by decide, rfl, rfl, by decide, by decide⟩

/-- C11 (amended): for every initial capacity `c` and every newline-terminated
line whose length `n` (excluding the terminator) satisfies `n + 2 < c`,
`km_readline_realloc_` never triggers a reallocation: no allocator call is
made, and the buffer address and the capacity are the same after the call as
before it. -/
theorem C11_line_that_fits_never_reallocates (t : Target) (env : Env) (buf : Buffer)
    (line rest : List Byte) (log : Log) (fuel : Nat) (file : String) (ln : Int)
    (hline : ∀ b ∈ line, b ≠ 10) (hfit : line.length + 2 < buf.bytes.length)
    (hsz : buf.bytes.length < t.wordMod) (hfuel : line.length + 1 ≤ fuel) :
    ∃ (r : Int) (fp : FILE) (bs : List Byte) (ws : List (Nat × Nat)),
      km_readline_realloc_ t env fuel
        ⟨some (some buf), some ⟨line ++ 10 :: rest, false⟩, some buf.bytes.length, log⟩
        file ln =
        .ret r ⟨some (some ⟨buf.addr, bs⟩), some fp, some buf.bytes.length,
          ⟨log.errs, log.allocs, ws⟩⟩ ∧
      bs.length = buf.bytes.length :=
  readLoop_fits t env rest line fuel ⟨buf, buf.bytes.length, ⟨line ++ 10 :: rest, false⟩, log⟩ 0
    rfl hline rfl (by simpa using hfit) hsz hfuel

/-- C11 (amended) at capacity 5 and the stream `"ab\n"`. -/
theorem C11_witness :
    ∃ (r : Int) (fp : FILE) (bs : List Byte) (ws : List (Nat × Nat)),
      km_readline_realloc_ .w64 envFail 3
        ⟨some (some ⟨8, [0, 0, 0, 0, 0]⟩), some ⟨[97, 98] ++ 10 :: [], false⟩,
          some (Buffer.mk 8 [0, 0, 0, 0, 0]).bytes.length, Log.empty⟩ "main.c" 7 =
        .ret r ⟨some (some ⟨(Buffer.mk 8 [0, 0, 0, 0, 0]).addr, bs⟩), some fp,
          some (Buffer.mk 8 [0, 0, 0, 0, 0]).bytes.length,
          ⟨Log.empty.errs, Log.empty.allocs, ws⟩⟩ ∧
      bs.length = (Buffer.mk 8 [0, 0, 0, 0, 0]).bytes.length :=
  C11_line_that_fits_never_reallocates .w64 envFail ⟨8, [0, 0, 0, 0, 0]⟩ [97, 98] []
    Log.empty 3 "main.c" 7 (by simp) (by decide) (by simp [Target.wordMod, Target.bits])
    (by decide)

/-! ## Every call settles -/

theorem kmroundupz_two (t : Target) : kmroundupz t 2 = 4 := by
  cases t <;> decide

theorem growOk_eq_grown (t : Target) (env : Env) (s : State) (a : Nat)
    (h : s.size + 1 < 2 ^ (t.bits - 1)) : growOk t env s a = grown t env s a := by
  obtain ⟨e1, e2⟩ := newSize_eq t s h
  simp only [growOk, grown, e1, e2]

/-- The inner loop settles, whatever the allocator answers. -/
theorem growLoop_settled (t : Target) (env : Env) (l0 : Log) (c0 : Nat) (fuel : Nat)
    (s : State) (len : Nat) (hfuel : 2 ≤ fuel)
    (hlen : s.buf.bytes.length = s.size) (hsz : s.size < t.wordMod)
    (hnf : NoFail env l0 s.log) (hcap : CapOk l0 c0 s.size s.log)
    (h1 : len + 1 ≤ s.size ∨ (len = 1 ∧ s.size = 1))
    (hov : len + 3 < 2 ^ (t.bits - 1)) :
    GrowSettled t env l0 c0 s.fp len (growLoop t env fuel s len) := by
  have hW := wordMod_eq t
  obtain ⟨f, rfl⟩ : ∃ f, fuel = f + 2 := ⟨fuel - 2, by omega⟩
  by_cases hg : len + 2 < s.size
  · rw [growLoop_skip t env s len (f + 1) hg hsz]
    exact ⟨hlen, hsz, hnf, hcap, hg, rfl⟩
  · have hpos : 1 ≤ s.size := by omega
    have hin : s.size + 1 < 2 ^ (t.bits - 1) := by omega
    obtain ⟨e1, e2⟩ := newSize_eq t s hin
    obtain ⟨r1, r2, r3⟩ := @kmroundupz_spec t (s.size + 1) (by omega) hin
    have hbig : len + 2 < kmroundupz t (s.size + 1) := by
      rcases h1 with h | ⟨ha, hb⟩
      · omega
      · rw [hb, ha, kmroundupz_two]; decide
    have hm : mustGrow t s len := by
      have e1' : (s.size + t.wordMod - 1) % t.wordMod = s.size - 1 := pred_mod (by omega) hsz
      have e2' : (len + 1) % t.wordMod = len + 1 := Nat.mod_eq_of_lt (by omega)
      show (s.size + t.wordMod - 1) % t.wordMod ≤ (len + 1) % t.wordMod
      rw [e1', e2']; omega
    have hcap' : ∀ l : Log, l.allocs.length = s.log.allocs.length + 1 →
        CapOk l0 c0 (kmroundupz t (s.size + 1)) l := fun l hl =>
      Or.inr ⟨r3, by rw [hl]; have := hnf.2.1; omega⟩
    rw [growLoop_step t env s len (f + 1) hm]
    cases ha : env.alloc s.log.allocs.length with
    | none =>
      refine ⟨s.buf, kmroundupz t (s.size + 1), rfl, ?_, by omega, ?_, Or.inr
        ⟨rfl, ⟨s.log.allocs.length, hnf.2.1, ?_, ha⟩, ?_, by omega, by rw [hlen], ?_⟩⟩
      · simp only [State.toWorld, growFail, e1]
      · exact hcap' _ (by simp [State.toWorld, growFail])
      · simp [State.toWorld, growFail]
      · simp only [State.toWorld, growFail, hnf.1]
      · simp [State.toWorld, growFail, e2]
    | some a =>
      simp only
      rw [growOk_eq_grown t env s a hin]
      have h3 : len + 2 < (grown t env s a).size := hbig
      have h4 : (grown t env s a).size < t.wordMod := by
        show kmroundupz t (s.size + 1) < t.wordMod
        omega
      rw [growLoop_skip t env (grown t env s a) len f h3 h4]
      refine ⟨grown_length t env s a (by omega), h4,
        noFail_trans hnf (noFail_alloc env s.log _ a ha), ?_, h3, rfl⟩
      exact hcap' _ (by simp [grown])

theorem capOk_stored (l0 : Log) (c0 : Nat) (s : State) (i : Nat) (b : Byte)
    (h : CapOk l0 c0 s.size s.log) : CapOk l0 c0 (stored s i b).size (stored s i b).log := h

theorem noFail_stored (env : Env) (l0 : Log) (s : State) (i : Nat) (b : Byte)
    (h : NoFail env l0 s.log) : NoFail env l0 (stored s i b).log := h

/-- The last lines of the function settle when the null terminator fits. -/
theorem finish_settled (t : Target) (env : Env) (l0 : Log) (c0 : Nat) (s : State) (len : Nat)
    (hlen : s.buf.bytes.length = s.size) (h : len < s.size) (hnf : NoFail env l0 s.log)
    (hcap : CapOk l0 c0 s.size s.log) : Settled t env l0 c0 (finish t s len) := by
  rw [finish_eq t s len (by omega)]
  split
  · exact ⟨_, s.size, rfl, rfl, by omega, hcap, Or.inl ⟨hnf, by simp [stored, hlen]⟩⟩
  · exact ⟨_, s.size, rfl, rfl, by omega, hcap, Or.inl ⟨hnf, by simp [stored, hlen]⟩⟩

/-- A byte that is not taken for `EOF` came from the stream. -/
theorem fgetc_data (fp : FILE) (h : ¬ charVal (toChar (fgetc fp).1) = EOF) :
    (fgetc fp).2.data.length + 1 = fp.data.length := by
  unfold fgetc at h ⊢
  split at h
  · exact absurd (by rw [toChar_EOF]; decide) h
  · split at h
    · exact absurd (by rw [toChar_EOF]; decide) h
    · next b rest hd =>
      rw [if_neg (by assumption)]
      simp only [hd, List.length_cons]

/-- The outer loop settles from every state in which the invariant holds. -/
theorem readLoop_settled (t : Target) (env : Env) (l0 : Log) (c0 : Nat) :
    ∀ (fuel : Nat) (s : State) (len : Nat), Inv t env l0 c0 s len →
      len + s.fp.data.length + 3 < 2 ^ (t.bits - 1) → s.fp.data.length + 2 ≤ fuel →
      Settled t env l0 c0 (readLoop t env fuel s len) := by
  intro fuel
  induction fuel with
  | zero => intro s len _ _ hf; omega
  | succ f ih =>
    intro s len hI hov hfuel
    obtain ⟨h1, h2, hnf, hcap, h3⟩ := hI
    have hW := wordMod_eq t
    have e2 : (len + 1) % t.wordMod = len + 1 := Nat.mod_eq_of_lt (by omega)
    have hlt : len < s.size := by
      rcases h3 with h | ⟨h, h', -, -⟩
      · omega
      · omega
    rw [readLoop]
    simp only
    rw [store_eq (s := { s with fp := (fgetc s.fp).2 }) _ (by show len < s.buf.bytes.length; omega)]
    simp only [e2]
    have hl1 : (stored { s with fp := (fgetc s.fp).2 } len
        (toChar (fgetc s.fp).1)).buf.bytes.length =
        (stored { s with fp := (fgetc s.fp).2 } len (toChar (fgetc s.fp).1)).size := by
      simp only [stored, List.length_set]; exact h1
    split
    · exact finish_settled t env l0 c0 _ len hl1 hlt hnf hcap
    · next hne =>
      split
      · rcases h3 with h | ⟨ha, hb, hc, hd⟩
        · exact finish_settled t env l0 c0 _ (len + 1) hl1 (by show len + 1 < s.size; omega)
            hnf hcap
        · unfold finish
          rw [store_none 0 (by simp only [stored, List.length_set]; omega)]
          exact ⟨hc, by omega, by simp [State.toWorld, stored, hb], hd, hnf.1⟩
      · have hdata := fgetc_data s.fp hne
        have hg := growLoop_settled t env l0 c0 f
          (stored { s with fp := (fgetc s.fp).2 } len (toChar (fgetc s.fp).1)) (len + 1)
          (by omega) hl1 (by show s.size < t.wordMod; omega) hnf hcap
          (by
            rcases h3 with h | ⟨ha, hb, -, -⟩
            · exact Or.inl (by show len + 1 + 1 ≤ s.size; omega)
            · exact Or.inr ⟨by omega, hb⟩)
          (by omega)
        revert hg
        cases growLoop t env f
          (stored { s with fp := (fgetc s.fp).2 } len (toChar (fgetc s.fp).1)) (len + 1) with
        | stop o => intro hg; exact hg
        | next s2 =>
          intro hg
          obtain ⟨g1, g2, g3, g4, g5, g6⟩ := hg
          have hfp : s2.fp.data.length = (fgetc s.fp).2.data.length := by rw [g6]; rfl
          exact ih s2 (len + 1) ⟨g1, g2, g3, g4, Or.inl (by omega)⟩ (by omega) (by omega)

/-- Every call on non-null arguments with a valid buffer of at least one byte
settles, given enough fuel. -/
theorem readline_settled (t : Target) (env : Env) (fuel : Nat) (buf : Buffer) (fp : FILE)
    (log : Log) (file : String) (ln : Int) (hcap : 1 ≤ buf.bytes.length)
    (hsz : buf.bytes.length < t.wordMod) (hov : fp.data.length + 3 < 2 ^ (t.bits - 1))
    (hfuel : fp.data.length + 2 ≤ fuel) :
    Settled t env log buf.bytes.length (km_readline_realloc_ t env fuel
      ⟨some (some buf), some fp, some buf.bytes.length, log⟩ file ln) := by
  refine readLoop_settled t env log buf.bytes.length fuel ⟨buf, buf.bytes.length, fp, log⟩ 0
    ⟨rfl, hsz, noFail_refl env log, Or.inl ⟨rfl, rfl⟩, ?_⟩ (by simpa using hov) hfuel
  by_cases h : 2 ≤ buf.bytes.length
  · exact Or.inl (by simpa using h)
  · exact Or.inr ⟨rfl, by show buf.bytes.length = 1; omega, by omega, rfl⟩

theorem three_not_two_pow : ¬ ∃ j, 3 = 2 ^ j := by
  rintro ⟨k, hk⟩
  have h1 : 2 ^ 1 < 2 ^ k := by omega
  have h2 : 2 ^ k < 2 ^ 2 := by omega
  have a := (Nat.pow_lt_pow_iff_right (by decide : 1 < 2)).1 h1
  have b := (Nat.pow_lt_pow_iff_right (by decide : 1 < 2)).1 h2
  omega

/-- C13, as stated, fails: with capacity 3 and an exhausted stream the call
returns with the capacity still 3, which is not a power of two. -/
theorem C13_counterexample :
    km_readline_realloc_ .w64 envOk 10 (world 3 []) "main.c" 7 =
      .ret EOF ⟨some (some ⟨8, [0, 0, 0]⟩), some ⟨[], true⟩, some 3,
        ⟨[], [], [(0, 3), (0, 3)]⟩⟩ ∧
    ¬ ∃ j, 3 = 2 ^ j :=
  ⟨by decide, three_not_two_pow⟩

/-- C13 (amended): for every call with valid arguments and a valid buffer of
initial capacity at least 1 (a power of two or not), on a stream of fewer than
half the range of `size_t` minus three bytes, the capacity stored in `*size`
when the call returns is at least 1 and is either the initial capacity, after
no allocator call (the call did not grow the buffer), or a power of two, after
at least one allocator call (it did). The call does return, except that with
initial capacity 1 it may stop at the store at index 1. -/
theorem C13_capacity_on_return (t : Target) (env : Env) (fuel : Nat) (buf : Buffer) (fp : FILE)
    (log : Log) (file : String) (ln : Int) (hcap : 1 ≤ buf.bytes.length)
    (hsz : buf.bytes.length < t.wordMod) (hov : fp.data.length + 3 < 2 ^ (t.bits - 1))
    (hfuel : fp.data.length + 2 ≤ fuel) :
    (∃ (r : Int) (w : World) (sz : Nat),
      km_readline_realloc_ t env fuel
        ⟨some (some buf), some fp, some buf.bytes.length, log⟩ file ln = .ret r w ∧
      w.size = some sz ∧ 1 ≤ sz ∧
      ((sz = buf.bytes.length ∧ w.log.allocs = log.allocs) ∨
       ((∃ j, sz = 2 ^ j) ∧ log.allocs.length < w.log.allocs.length))) ∨
    (buf.bytes.length = 1 ∧ ∃ w : World,
      km_readline_realloc_ t env fuel
        ⟨some (some buf), some fp, some buf.bytes.length, log⟩ file ln = .ub w 1) := by
  have h := readline_settled t env fuel buf fp log file ln hcap hsz hov hfuel
  revert h
  cases km_readline_realloc_ t env fuel
      ⟨some (some buf), some fp, some buf.bytes.length, log⟩ file ln with
  | nofuel => intro h; exact absurd h id
  | ub w i =>
    intro h
    obtain ⟨h1, h2, -⟩ := h
    subst h2
    exact Or.inr ⟨h1, w, rfl⟩
  | ret r w =>
    intro h
    obtain ⟨b, sz, -, h2, h3, h4, -⟩ := h
    exact Or.inl ⟨r, w, sz, rfl, h2, h3, h4⟩

/-- C13 (amended) at capacity 3 and the stream `"a\n"`: the call returns with
a capacity of at least 1 that is 3 or a power of two. -/
theorem C13_witness :
    (∃ (r : Int) (w : World) (sz : Nat),
      km_readline_realloc_ .w64 envOk 4
        ⟨some (some ⟨8, [0, 0, 0]⟩), some ⟨[97, 10], false⟩,
          some (Buffer.mk 8 [0, 0, 0]).bytes.length, Log.empty⟩ "main.c" 7 = .ret r w ∧
      w.size = some sz ∧ 1 ≤ sz ∧
      ((sz = (Buffer.mk 8 [0, 0, 0]).bytes.length ∧ w.log.allocs = Log.empty.allocs) ∨
       ((∃ j, sz = 2 ^ j) ∧ Log.empty.allocs.length < w.log.allocs.length))) ∨
    ((Buffer.mk 8 [0, 0, 0]).bytes.length = 1 ∧ ∃ w : World,
      km_readline_realloc_ .w64 envOk 4
        ⟨some (some ⟨8, [0, 0, 0]⟩), some ⟨[97, 10], false⟩,
          some (Buffer.mk 8 [0, 0, 0]).bytes.length, Log.empty⟩ "main.c" 7 = .ub w 1) :=
  C13_capacity_on_return .w64 envOk 4 ⟨8, [0, 0, 0]⟩ ⟨[97, 10], false⟩ Log.empty "main.c" 7
    (by decide) (by simp [Target.wordMod, Target.bits]) (by simp [Target.bits]) (by decide)

theorem afterByte_capOk (t : Target) (env : Env) (l0 : Log) (c0 : Nat) (s : State) (len : Nat)
    (b : Byte) (hR : Ready t s len) (hov : len + 4 < 2 ^ (t.bits - 1))
    (hl : l0.allocs.length ≤ s.log.allocs.length) (h : CapOk l0 c0 s.size s.log) :
    CapOk l0 c0 (afterByte t env s len b).size (afterByte t env s len b).log ∧
      l0.allocs.length ≤ (afterByte t env s len b).log.allocs.length := by
  obtain ⟨h1, h2, h3⟩ := hR
  unfold afterByte
  simp only
  split
  · exact ⟨h, hl⟩
  · next hg =>
    simp only [stored] at hg
    obtain ⟨-, -, r3⟩ := @kmroundupz_spec t (s.size + 1) (by omega) (by omega)
    refine ⟨Or.inr ⟨r3, ?_⟩, ?_⟩
    · simp only [grown, stored, List.length_append, List.length_singleton]; omega
    · simp only [grown, stored, List.length_append, List.length_singleton]; omega

theorem afterBytes_capOk (t : Target) (env : Env) (l0 : Log) (c0 : Nat) (pre : List Byte) :
    ∀ (s : State) (len : Nat), Ready t s len → len + pre.length + 3 < 2 ^ (t.bits - 1) →
      l0.allocs.length ≤ s.log.allocs.length → CapOk l0 c0 s.size s.log →
      CapOk l0 c0 (afterBytes t env pre s len).size (afterBytes t env pre s len).log := by
  induction pre with
  | nil => intro s len _ _ _ h; exact h
  | cons b bs ih =>
    intro s len hR hov hl h
    simp only [List.length_cons] at hov
    rw [afterBytes]
    obtain ⟨a1, a2⟩ := afterByte_capOk t env l0 c0 s len b hR (by omega) hl h
    exact ih _ (len + 1) (afterByte_ready t env s len b hR (by omega)) (by omega) a2 a1

/-- A whole call on a stream whose next line is `line` followed by the
terminator, seen from the caller: the value, the world, the contents and the
capacity. -/
theorem readline_line_world (t : Target) (env : Env) (hok : ∀ k, env.alloc k ≠ none)
    (buf : Buffer) (line rest : List Byte) (log : Log) (fuel : Nat) (file : String) (ln : Int)
    (hcap : 2 ≤ buf.bytes.length) (hsz : buf.bytes.length < t.wordMod)
    (hline : ∀ b ∈ line, b ≠ 10 ∧ b ≠ 255)
    (hov : line.length + 3 < 2 ^ (t.bits - 1)) (hfuel : line.length + 2 ≤ fuel) :
    ∃ (b : Buffer) (lg : Log),
      km_readline_realloc_ t env fuel
        ⟨some (some buf), some ⟨line ++ 10 :: rest, false⟩, some buf.bytes.length, log⟩
        file ln =
        .ret ((line.length : Int) + 1)
          ⟨some (some b), some ⟨rest, false⟩, some b.bytes.length, lg⟩ ∧
      b.bytes.take (line.length + 2) = line ++ [10, 0] ∧
      line.length + 2 ≤ b.bytes.length ∧ b.bytes.length < t.wordMod ∧
      CapOk log buf.bytes.length b.bytes.length lg := by
  have hR : Ready t ⟨buf, buf.bytes.length, ⟨line ++ 10 :: rest, false⟩, log⟩ 0 :=
    ⟨rfl, by simpa using hcap, hsz⟩
  have hR' := afterBytes_ready t env line _ 0 hR (by omega)
  have htk := afterBytes_take t env line _ 0 hR (by omega)
  have hco := afterBytes_capOk t env log buf.bytes.length line _ 0 hR (by omega) (le_refl _)
    (Or.inl ⟨rfl, rfl⟩)
  have key := readline_line t env hok buf line rest log fuel file ln hcap hsz hline hov hfuel
  simp only [Nat.zero_add, List.take_zero, List.nil_append] at hR' htk
  generalize afterBytes t env line ⟨buf, buf.bytes.length, ⟨line ++ 10 :: rest, false⟩, log⟩ 0 = S
    at key hR' htk hco
  obtain ⟨h1, h2, h3⟩ := hR'
  refine ⟨⟨S.buf.addr, (S.buf.bytes.set line.length 10).set (line.length + 1) 0⟩,
    ⟨S.log.errs, S.log.allocs,
      S.log.writes ++ [(line.length, S.size)] ++ [(line.length + 1, S.size)]⟩, ?_, ?_, ?_, ?_, ?_⟩
  · rw [key]
    simp only [State.toWorld, stored, List.length_set, h1]
  · simp only
    rw [take_set_succ _ (line.length + 1) 0 (by rw [List.length_set]; omega),
      take_set_succ _ line.length 10 (by omega), htk]
    simp
  · simp only [List.length_set]; omega
  · simp only [List.length_set]; omega
  · simp only [List.length_set, h1]
    exact hco

/-- A line without the byte `0xFF` that makes the buffer grow: the final
capacity is a power of two with room for the line, its terminator and the null
terminator, and the buffer starts with the bytes read from the stream. -/
theorem readline_line_grown (t : Target) (env : Env) (hok : ∀ k, env.alloc k ≠ none)
    (buf : Buffer) (line rest : List Byte) (log : Log) (fuel : Nat) (file : String) (ln : Int)
    (hcap : 2 ≤ buf.bytes.length) (hsz : buf.bytes.length < t.wordMod)
    (hline : ∀ b ∈ line, b ≠ 10 ∧ b ≠ 255)
    (hov : line.length + 3 < 2 ^ (t.bits - 1)) (hfuel : line.length + 2 ≤ fuel) :
    ∃ (b : Buffer) (lg : Log),
      km_readline_realloc_ t env fuel
        ⟨some (some buf), some ⟨line ++ 10 :: rest, false⟩, some buf.bytes.length, log⟩
        file ln =
        .ret ((line.length : Int) + 1)
          ⟨some (some b), some ⟨rest, false⟩, some b.bytes.length, lg⟩ ∧
      b.bytes.take (line.length + 1) = line ++ [10] ∧
      line.length + 2 ≤ b.bytes.length ∧
      (log.allocs.length < lg.allocs.length → ∃ j, b.bytes.length = 2 ^ j) := by
  obtain ⟨b, lg, h1, h2, h3, -, h5⟩ :=
    readline_line_world t env hok buf line rest log fuel file ln hcap hsz hline hov hfuel
  refine ⟨b, lg, h1, ?_, h3, fun hlt => ?_⟩
  · have e : List.take (line.length + 1) (List.take (line.length + 2) b.bytes) =
        List.take (line.length + 1) b.bytes := by
      rw [List.take_take]; congr 1; omega
    rw [← e, h2]
    simp [List.take_append_eq_append_take]
  · rcases h5 with ⟨-, e⟩ | ⟨hp, -⟩
    · rw [e] at hlt; omega
    · exact hp

/-- C12 fails on the code: with capacity 2 and the newline-terminated line
`"a\xFFbcdefgh"` (9 bytes) the call makes one reallocation, which succeeds,
and returns 1 at the byte `0xFF`: the final capacity is 4, less than the line
length plus one, and the byte `0xFF` that was read from the stream is not in
the buffer. -/
theorem C12_ff_byte_cuts_the_line :
    km_readline_realloc_ .w64 envOk 20
        (world 2 [97, 255, 98, 99, 100, 101, 102, 103, 104, 10]) "main.c" 7 =
      .ret 1 ⟨some (some ⟨1000, [97, 0, 0, 0]⟩),
        some ⟨[98, 99, 100, 101, 102, 103, 104, 10], false⟩, some 4,
        ⟨[], [.realloc 8 4], [(0, 2), (1, 4), (1, 4)]⟩⟩ ∧
    ¬ (([97, 255, 98, 99, 100, 101, 102, 103, 104] : List Byte).length + 1 ≤ 4) := by
  decide

/-! ## Reading a whole stream line by line -/

end Kdm
